import Mathlib

/-!
Verification of the altruct number-theory core (primes.h, modulos.h).

The integer-typed template functions of the source are embedded over ℤ
(for the Miller-Rabin tester, whose claims involve negative inputs, and
for the Chinese remainder routine, whose Bezout coefficients are signed)
and over ℕ (for the factorization engine and modular root finders, which
the source instantiates at unsigned 64-bit integers and which only ever
see nonnegative values).  C++ `%` and `/` truncate toward zero, so they
are `Int.tmod`/`Int.tdiv` on ℤ and plain `%`/`/` on ℕ.

External collaborators that are not part of the source under `src/`
(the `moduloX` modular-integer type, `powT` fast exponentiation,
`gcd_ex` extended gcd, `modulo_multiply`/`modulo_normalize`, and the
`quadraticX` extension type) are modelled from the spec; each such
definition carries a comment saying so.

Loops of the source are embedded as structurally recursive functions on
an explicit fuel argument so that they stay kernel-computable; every
fuel value used is proved (or commented) to be large enough that the
fuel-exhaustion branch is unreachable, so the functions agree with the
source's unbounded loops.
-/

set_option maxRecDepth 40000
set_option maxHeartbeats 1000000000
set_option linter.unusedVariables false

namespace Altruct

/-! ### Modular arithmetic core (modelled external collaborators) -/

/-- Modelled from the spec: the modular exponentiation primitive `powT`
over the external `moduloX` type — square-and-multiply exponentiation
with every intermediate re-normalized into `[0, M)`.  `powmodAux b f e m`
computes `(b % m) ^ e % m`; the fuel `f` only needs to be at least `e`
(the recursion depth is the bit length of `e`). -/
def powmodAux (b : Nat) : Nat → Nat → Nat → Nat
  | 0, _, m => 1 % m
  | f+1, e, m =>
    if e = 0 then 1 % m
    else
      let h := powmodAux b f (e / 2) m
      let h2 := h * h % m
      if e % 2 = 1 then h2 * (b % m) % m else h2

/-- Modelled from the spec: `powT(moduloX(b, m), e)`, the value
`(b % m) ^ e % m` (proved as `powmod_eq`). -/
def powmod (b e m : Nat) : Nat := powmodAux b e e m

/-! ### Miller-Rabin primality test (primes.h, lines 351-399) -/

/-- Source `miller_rabin`: the loop `while (d % 2 == 0) d /= 2, r++;`
writing `n - 1 = 2^r * d`.  The fuel bounds the number of halvings; the
`d ≠ 0` guard encodes the loop's termination (the source loop would not
terminate on `d = 0`, which is unreachable because `n ∉ {0,1}` has been
handled before the loop runs). -/
def split2 : Nat → Int → Int × Nat
  | 0, d => (d, 0)
  | f+1, d =>
    if d.tmod 2 = 0 ∧ d ≠ 0 then
      let r := split2 f (d.tdiv 2)
      (r.1, r.2 + 1)
    else (d, 0)

/-- Source `miller_rabin`: the inner loop
`for (int i = 1; i < r; i++) { x *= x; if (x == 1 || x == n - 1) break; }`
on residues modulo `n` (the `moduloX` values are kept as naturals below
their modulus).  `k` is the remaining iteration count `r - 1`. -/
def mrSquare : Nat → Nat → Nat → Nat
  | 0, _, x => x
  | k+1, n, x =>
    let y := x * x % n
    if y = 1 ∨ y = n - 1 then y else mrSquare k n y

/-- Source `miller_rabin`: the body of the base loop for one base whose
residue is `b`: compute `x = b^d`, accept if `x ∈ {1, n-1}`, otherwise
square up to `r - 1` times and accept iff the loop left `x = n - 1`. -/
def mrCheckBase (n d r b : Nat) : Bool :=
  let x := powmod b d n
  if x = 1 ∨ x = n - 1 then true
  else decide (mrSquare (r - 1) n x = n - 1)

/-- Source `miller_rabin`: the base loop
`for (int i = 0; bases[i] && bases[i] < n; i++)`.  The null terminator of
the C array corresponds to the end of the list; a zero or out-of-range
base stops the loop (it does not skip it), exactly as in the source. -/
def mrBasesLoop (n : Int) (d r : Nat) : List Int → Bool
  | [] => true
  | b :: bs =>
    if b ≠ 0 ∧ b < n then
      if mrCheckBase n.toNat d r (b.emod n).toNat then mrBasesLoop n d r bs else false
    else true

/-- Source `miller_rabin(n, bases)` (primes.h lines 351-369): the
base-list overload of the Miller-Rabin probable-primality test. -/
def miller_rabin_bases (n : Int) (bases : List Int) : Bool :=
  if n = 0 ∨ n = 1 then false
  else if n = 2 ∨ n = 3 then true
  else if n.tmod 2 = 0 then false
  else
    let s := split2 (n - 1).natAbs (n - 1)
    mrBasesLoop n s.1.toNat s.2 bases

/-- Source `miller_rabin(n)` (primes.h lines 377-399): the
threshold-selecting overload.  The final two source branches both use
the nine-base list, so they are a single `else` here. -/
def miller_rabin (n : Int) : Bool :=
  if n < 2047 then miller_rabin_bases n [2]
  else if n < 9080191 then miller_rabin_bases n [31, 73]
  else if n < 4759123141 then miller_rabin_bases n [2, 7, 61]
  else if n < 1122004669633 then miller_rabin_bases n [2, 13, 23, 1662803]
  else if n < 341550071728321 then miller_rabin_bases n [2, 3, 5, 7, 11, 13, 17]
  else miller_rabin_bases n [2, 3, 5, 7, 11, 13, 17, 19, 23]

/-- The factorization engine instantiates the integer template type at an
unsigned integer; its calls to the primality test are the same
`miller_rabin` at nonnegative arguments. -/
def mrN (n : Nat) : Bool := miller_rabin (n : Int)

/-! ### Ground-truth primality (verification side, not from the source) -/

/-- Trial division by odd candidates `d, d+2, d+4, ...` until `d * d > n`.
This is the verification-side ground truth used to compare the source's
Miller-Rabin answers against `Nat.Prime`; it is not part of the source. -/
def tdOdd (n : Nat) : Nat → Nat → Bool
  | 0, d => decide (n < d * d)
  | f+1, d =>
    if n < d * d then true
    else if n % d = 0 then false
    else tdOdd n f (d + 2)

/-- Boolean primality by trial division (verification side). -/
def isPrimeB (n : Nat) : Bool :=
  if n < 2 then false
  else if n < 4 then true
  else if n % 2 = 0 then false
  else tdOdd n n 3

/-- Does the source's threshold Miller-Rabin agree with ground-truth
primality at `n`? -/
def mrAgrees (n : Nat) : Bool := mrN n == isPrimeB n

/-- Checks `mrAgrees` on every `n` in `[lo, hi)`, by binary splitting so
that the recursion depth stays logarithmic. -/
def checkRange : Nat → Nat → Nat → Bool
  | 0, lo, hi => decide (hi ≤ lo)
  | f+1, lo, hi =>
    if hi ≤ lo then true
    else if hi = lo + 1 then mrAgrees lo
    else checkRange f lo ((lo + hi) / 2) && checkRange f ((lo + hi) / 2) hi

/-! ### Chinese remainder (modulos.h, lines 14-44) -/

/-- Modelled from the spec: the extended Euclidean algorithm `gcd_ex` of the
external base header, which computes Bezout coefficients.  For `b = 0` it
returns `(a, 1, 0)`; otherwise it recurses on `(b, a tmod b)`.  The fuel only
needs to exceed `b.toNat` (proved in `xgcdAuxF_spec`); the fuel-exhaustion
branch mirrors the `b = 0` base case and is unreachable. -/
def xgcdAuxF : Nat → Int → Int → Int × Int × Int
  | 0, a, _ => (a, 1, 0)
  | f+1, a, b =>
    if b = 0 then (a, 1, 0)
    else
      let q := a.tdiv b
      let t := xgcdAuxF f b (a.tmod b)
      (t.1, t.2.2, t.2.1 - q * t.2.2)

/-- Modelled from the spec: `g = gcd_ex(a, b, &x, &y)` with `x*a + y*b = g`,
returned here as the triple `(g, x, y)`. -/
def gcd_ex (a b : Int) : Int × Int × Int := xgcdAuxF (b.toNat + 1) a b

/-- Modelled from the spec: overflow-safe modular multiplication — the
mathematical value `(a * b) mod m`, normalized into `[0, m)` for `m > 0`. -/
def modulo_multiply (a b m : Int) : Int := (a * b) % m

/-- Modelled from the spec: re-normalization of a value into `[0, m)`. -/
def modulo_normalize (a m : Int) : Int := a % m

/-- Source `chinese_remainder` (modulos.h lines 25-35), pointer outputs
returned as the pair `(a, n)`.  The inconsistent case returns `(0, 0)`. -/
def chinese_remainder2 (a1 n1 a2 n2 : Int) : Int × Int :=
  let g := (gcd_ex n1 n2).1
  let ni1 := (gcd_ex n1 n2).2.1
  let ni2 := (gcd_ex n1 n2).2.2
  if (a2 - a1).tmod g ≠ 0 then (0, 0)
  else
    let t1 := modulo_multiply a1 ni2 n1
    let t2 := modulo_multiply a2 ni1 n2
    let n1g := n1.tdiv g
    let n2g := n2.tdiv g
    let n := n1g * n2g * g
    let a := modulo_multiply t1 n2g n + modulo_multiply t2 n1g n
    (modulo_normalize a n, n)

/-- Source `chinese_remainder` value overload (modulos.h lines 40-44):
returns only the combined residue `a`. -/
def chinese_remainder (a1 n1 a2 n2 : Int) : Int :=
  (chinese_remainder2 a1 n1 a2 n2).1

/-! ### Pollard rho and the factorization engine (primes.h, lines 420-501) -/

/-- Source `pollard_rho` inner loop
`while (d == 1 && max_inner_iter-- > 0) { x = g(x); y = g(g(y)); d = gcd(absT((x-y).v), n); }`
on residues modulo `n`, with `g(x) = x^2 + a`.  The `moduloX` difference
`(x - y).v` is already normalized into `[0, n)`, so `absT` is the identity
on it.  Returns `n` when the loop ends with `d = 1` (the source's final
`return (d == 1) ? n : d;`). -/
def prLoop (n a : Nat) : Nat → Nat → Nat → Nat
  | 0, _, _ => n
  | f+1, x, y =>
    let x2 := (x * x + a) % n
    let y1 := (y * y + a) % n
    let y2 := (y1 * y1 + a) % n
    let d := Nat.gcd ((x2 + n - y2) % n) n
    if d = 1 then prLoop n a f x2 y2 else d

/-- Source `pollard_rho` (primes.h lines 420-434), instantiated at an
unsigned integer type; `fuel` is the explicit `max_inner_iter` parameter. -/
def pollard_rho (n k a fuel : Nat) : Nat :=
  if n = 0 then 0
  else if n = 1 then 1
  else if n % 2 = 0 then 2
  else prLoop n a fuel (k % n) (k % n)

/-- Source `pollard_rho_repeated` loop `for (I k = 2; k <= max_iter; k++)`:
`c` counts the remaining values of `k`. -/
def prrAux (n fuel : Nat) : Nat → Nat → Nat
  | 0, _ => n
  | c+1, k =>
    let d := pollard_rho n k k fuel
    if d ≠ n then d else prrAux n fuel c (k + 1)

/-- Source `pollard_rho_repeated` (primes.h lines 443-450): tries
`k = a = 2, 3, ..., max_iter` and returns the first non-trivial result,
else `n`. -/
def pollard_rho_repeated (n maxIter fuel : Nat) : Nat :=
  prrAux n fuel (maxIter - 1) 2

/-- Source inner loop `while (b % a == 0) b /= a, e++;` used both by the
`factor_integer` orchestrator and by `factor_integer_slow`.  The guards
`2 ≤ a` and `b ≠ 0` encode termination (the source loop would not
terminate on `b = 0` or `a = 1`, both unreachable in the callers); fuel
`b` is always sufficient. -/
def extractPow (a : Nat) : Nat → Nat → Nat × Nat
  | 0, b => (b, 0)
  | f+1, b =>
    if 2 ≤ a ∧ b ≠ 0 ∧ b % a = 0 then
      let r := extractPow a f (b / a)
      (r.1, r.2 + 1)
    else (b, 0)

/-- Source `factor_integer` prime branch `for (auto& b : q) { while (b % a == 0) b /= a, e++; }`:
divides all powers of `a` out of every pending stack entry, summing the
extracted exponents. -/
def extractAll (a : Nat) : List Nat → List Nat × Nat
  | [] => ([], 0)
  | b :: q =>
    let r := extractPow a b b
    let s := extractAll a q
    (r.1 :: s.1, r.2 + s.2)

/-- Source `factor_integer` work-stack loop (primes.h lines 460-484).  The
list head is the stack top; the source's `q.push_back(d); q.push_back(a / d);`
therefore becomes `a / d :: d :: q`.  The loop always terminates (each
step decreases `2 * sum (x - 1) + length` of the stack, see
`fiLoopF_succ_eq`), so the fuel-exhaustion branch — which flushes the
remaining stack as exponent-1 entries — is unreachable for the fuel used
by `factor_integer`. -/
def fiLoopF (maxIter ifuel : Nat) : Nat → List Nat → List (Nat × Nat) → List (Nat × Nat)
  | 0, q, vf => vf ++ q.map (fun a => (a, 1))
  | _+1, [], vf => vf
  | f+1, a :: q, vf =>
    if a = 1 then fiLoopF maxIter ifuel f q vf
    else if mrN a then
      let r := extractAll a q
      fiLoopF maxIter ifuel f r.1 (vf ++ [(a, r.2 + 1)])
    else
      let d := pollard_rho_repeated a maxIter ifuel
      if d = 1 ∨ d = a then fiLoopF maxIter ifuel f q (vf ++ [(a, 1)])
      else fiLoopF maxIter ifuel f (a / d :: d :: q) vf

/-- The stack measure that strictly decreases at every `fiLoopF` step. -/
def stackMeasure (q : List Nat) : Nat :=
  2 * (q.map (fun x => x - 1)).sum + q.length

/-- Source `factor_integer` (primes.h lines 455-486) with the C++ defaults
`max_iter = 20` and `max_inner_iter = 1000000`.  From the start stack `[n]`
the loop runs at most `stackMeasure [n] = 2*(n-1) + 1` steps, so fuel
`2*n + 1` is sufficient. -/
def factor_integer (n : Nat) (maxIter : Nat := 20) (ifuel : Nat := 1000000) :
    List (Nat × Nat) :=
  if n = 0 ∨ n = 1 then [] else fiLoopF maxIter ifuel (2 * n + 1) [n] []

/-- Reconstruction of a factorization: the product of `p ^ e` over all pairs. -/
def prodPE (vf : List (Nat × Nat)) : Nat := (vf.map (fun pe => pe.1 ^ pe.2)).prod

/-- Source `factor_integer_slow` loop (primes.h lines 494-499):
`for (I i = 2; i <= n / i; i += 1)` with inner extraction; afterwards the
leftover `n > 1` is appended as `(n, 1)`.  The fuel-exhaustion branch
coincides with the loop-exit branch and is unreachable for fuel `n`. -/
def fisLoop : Nat → Nat → Nat → List (Nat × Nat)
  | 0, n, _ => if 1 < n then [(n, 1)] else []
  | f+1, n, i =>
    if i ≤ n / i then
      if n % i ≠ 0 then fisLoop f n (i + 1)
      else
        let r := extractPow i n n
        (i, r.2) :: fisLoop f r.1 (i + 1)
    else if 1 < n then [(n, 1)] else []

/-- Source `factor_integer_slow` (primes.h lines 491-501). -/
def factor_integer_slow (n : Nat) : List (Nat × Nat) := fisLoop n n 2

/-- Modelled from the spec: `modulo_inverse` of the external modulo header —
the Bezout coefficient of `a` computed by `gcd_ex(a, m)`, normalized into
`[0, m)`. -/
def modulo_inverse (a m : Int) : Int := modulo_normalize (gcd_ex a m).2.1 m

/-- Modelled from the spec: division on `moduloX` multiplies by the modular
inverse of the divisor. -/
def modulo_divide (a b m : Int) : Int := modulo_multiply a (modulo_inverse b m) m

/-- Source `kth_roots` insertion loop (modulos.h lines 225-228):
`for (int i = 0; i < d; i++) { sr.insert(r.v); r *= w; }` over a `std::set`,
modelled as a `Finset`; the `moduloX` multiplication `r *= w` is external to
`src/` and modelled from the spec as `r * w mod m`. -/
def kth_roots_loop (m w : Nat) : Nat → Nat → Finset Nat → Finset Nat
  | 0, _, s => s
  | c + 1, r, s => kth_roots_loop m w c (r * w % m) (insert r s)

/-- Source `kth_roots`, discrete-log variant (modulos.h lines 214-230).
The source locals `d = gcd(k, phi)`, `phi /= d`, `l /= d`, `k /= d` are
written inline; `powT` on `moduloX` and the division `modx(l, phi) / k`
are external to `src/` and modelled from the spec as modular
exponentiation and multiplication by the modular inverse. -/
def kth_roots (m k phi g l : Nat) : Finset Nat :=
  if Nat.gcd k phi = 0 ∨ l % Nat.gcd k phi ≠ 0 then ∅
  else
    kth_roots_loop m (powmod g (phi / Nat.gcd k phi) m) (Nat.gcd k phi)
      (powmod g (modulo_divide ((l / Nat.gcd k phi : Nat) : Int)
        ((k / Nat.gcd k phi : Nat) : Int) ((phi / Nat.gcd k phi : Nat) : Int)).toNat m) ∅

/-- Modelled from the spec: multiplication on `quadraticX` elements
`a + b √d` over `moduloX`, componentwise
`(a1 + b1 √d)(a2 + b2 √d) = (a1 a2 + b1 b2 d) + (a1 b2 + b1 a2) √d`,
both components reduced modulo `p`. -/
def qmul (p d : Nat) (x y : Nat × Nat) : Nat × Nat :=
  ((x.1 * y.1 + x.2 * y.2 * d) % p, (x.1 * y.2 + x.2 * y.1) % p)

/-- Modelled from the spec: `powT` on `quadraticX`, binary exponentiation
with the same structure as `powmodAux`; fuel `e` suffices. -/
def qpowAux (p d : Nat) (b : Nat × Nat) : Nat → Nat → Nat × Nat
  | 0, _ => (1 % p, 0)
  | f + 1, e =>
    if e = 0 then (1 % p, 0)
    else
      let h := qpowAux p d b f (e / 2)
      let h2 := qmul p d h h
      if e % 2 = 1 then qmul p d h2 b else h2

/-- Modelled from the spec: `powT` of a `quadraticX` element. -/
def qpow (p d : Nat) (b : Nat × Nat) (e : Nat) : Nat × Nat := qpowAux p d b e e

/-- Source `sqrt_cipolla` search step: the `moduloX` value `a * a - y`
normalized into `[0, p)` (the embedding assumes the residue `y ≤ p`). -/
def cipollaStep (p y a : Nat) : Nat := (a * a + (p - y)) % p

/-- Source `sqrt_cipolla` do-while search (modulos.h lines 108-111):
`do { a += 1, d = a * a - y; } while (powT(d, (y.M - 1) / 2) == 1)`.
Fuel `p` always suffices for a quadratic residue `y` (the test fails at
latest when `a * a ≡ y`, giving `d ≡ 0`); the fuel-exhaustion branch
performs the final `a += 1` without testing and is unreachable then. -/
def cipollaSearch (p y : Nat) : Nat → Nat → Nat × Nat
  | 0, a => (a + 1, cipollaStep p y (a + 1))
  | f + 1, a =>
    if powmod (cipollaStep p y (a + 1)) ((p - 1) / 2) p = 1 then
      cipollaSearch p y f (a + 1)
    else (a + 1, cipollaStep p y (a + 1))

/-- Source `sqrt_cipolla(y, p)` (modulos.h lines 104-122): searches
`a = 1, 2, ...` for the first `d = a² - y` failing the Euler test, then
returns the rational component `.a` of `(a + √d) ^ ((p + 1) / 2)`
computed in the quadratic extension (`quadraticX`, modelled from the
spec by `qpow`). -/
def sqrt_cipolla (y p : Nat) : Nat :=
  (qpow p (cipollaSearch p y p 0).2
    ((cipollaSearch p y p 0).1 % p, 1 % p) ((p + 1) / 2)).1

/-- The ring `ZMod p` adjoined a square root of `d`: the mathematical
counterpart of `quadraticX`, used to reason about `qmul`/`qpow`. -/
@[ext]
structure QAdj (p : Nat) (d : ZMod p) where
  a : ZMod p
  b : ZMod p

instance (p : Nat) (d : ZMod p) : Add (QAdj p d) :=
  ⟨fun x y => ⟨x.a + y.a, x.b + y.b⟩⟩

instance (p : Nat) (d : ZMod p) : Zero (QAdj p d) :=
  ⟨⟨0, 0⟩⟩

instance (p : Nat) (d : ZMod p) : Neg (QAdj p d) :=
  ⟨fun x => ⟨-x.a, -x.b⟩⟩

instance (p : Nat) (d : ZMod p) : Mul (QAdj p d) :=
  ⟨fun x y => ⟨x.a * y.a + x.b * y.b * d, x.a * y.b + x.b * y.a⟩⟩

instance (p : Nat) (d : ZMod p) : One (QAdj p d) :=
  ⟨⟨1, 0⟩⟩

instance (p : Nat) (d : ZMod p) : CommRing (QAdj p d) where
  add x y := x + y
  zero := 0
  neg x := -x
  mul x y := x * y
  one := 1
  natCast n := ⟨(n : ZMod p), 0⟩
  nsmul := nsmulRec
  zsmul := zsmulRec
  add_assoc x y z := QAdj.ext (add_assoc x.a y.a z.a) (add_assoc x.b y.b z.b)
  zero_add x := QAdj.ext (zero_add x.a) (zero_add x.b)
  add_zero x := QAdj.ext (add_zero x.a) (add_zero x.b)
  add_comm x y := QAdj.ext (add_comm x.a y.a) (add_comm x.b y.b)
  neg_add_cancel x := QAdj.ext (neg_add_cancel x.a) (neg_add_cancel x.b)
  mul_assoc x y z := by
    refine QAdj.ext ?_ ?_
    · show (x.a * y.a + x.b * y.b * d) * z.a + (x.a * y.b + x.b * y.a) * z.b * d
        = x.a * (y.a * z.a + y.b * z.b * d) + x.b * (y.a * z.b + y.b * z.a) * d
      ring
    · show (x.a * y.a + x.b * y.b * d) * z.b + (x.a * y.b + x.b * y.a) * z.a
        = x.a * (y.a * z.b + y.b * z.a) + x.b * (y.a * z.a + y.b * z.b * d)
      ring
  one_mul x := by
    refine QAdj.ext ?_ ?_
    · show 1 * x.a + 0 * x.b * d = x.a
      ring
    · show 1 * x.b + 0 * x.a = x.b
      ring
  mul_one x := by
    refine QAdj.ext ?_ ?_
    · show x.a * 1 + x.b * 0 * d = x.a
      ring
    · show x.a * 0 + x.b * 1 = x.b
      ring
  left_distrib x y z := by
    refine QAdj.ext ?_ ?_
    · show x.a * (y.a + z.a) + x.b * (y.b + z.b) * d
        = (x.a * y.a + x.b * y.b * d) + (x.a * z.a + x.b * z.b * d)
      ring
    · show x.a * (y.b + z.b) + x.b * (y.a + z.a)
        = (x.a * y.b + x.b * y.a) + (x.a * z.b + x.b * z.a)
      ring
  right_distrib x y z := by
    refine QAdj.ext ?_ ?_
    · show (x.a + y.a) * z.a + (x.b + y.b) * z.b * d
        = (x.a * z.a + x.b * z.b * d) + (y.a * z.a + y.b * z.b * d)
      ring
    · show (x.a + y.a) * z.b + (x.b + y.b) * z.a
        = (x.a * z.b + x.b * z.a) + (y.a * z.b + y.b * z.a)
      ring
  zero_mul x := by
    refine QAdj.ext ?_ ?_
    · show 0 * x.a + 0 * x.b * d = 0
      ring
    · show 0 * x.b + 0 * x.a = 0
      ring
  mul_zero x := by
    refine QAdj.ext ?_ ?_
    · show x.a * 0 + x.b * 0 * d = 0
      ring
    · show x.a * 0 + x.b * 0 = 0
      ring
  mul_comm x y := by
    refine QAdj.ext ?_ ?_
    · show x.a * y.a + x.b * y.b * d = y.a * x.a + y.b * x.b * d
      ring
    · show x.a * y.b + x.b * y.a = y.a * x.b + y.b * x.a
      ring
  natCast_zero := QAdj.ext Nat.cast_zero rfl
  natCast_succ n := QAdj.ext (by
      show ((n + 1 : Nat) : ZMod p) = (n : ZMod p) + 1
      push_cast
      ring)
    (by
      show (0 : ZMod p) = 0 + 0
      ring)

instance (p : Nat) (d : ZMod p) : CharP (QAdj p d) p :=
  ⟨fun n => by
    constructor
    · intro h
      have ha : ((n : ZMod p)) = 0 := congrArg QAdj.a h
      exact (CharP.cast_eq_zero_iff (ZMod p) p n).mp ha
    · intro h
      refine QAdj.ext ?_ rfl
      exact (CharP.cast_eq_zero_iff (ZMod p) p n).mpr h⟩

/-- The interpretation of a `quadraticX` value pair in `QAdj`. -/
def QAdj.ofPair (p : Nat) (d : ZMod p) (x : Nat × Nat) : QAdj p d :=
  ⟨(x.1 : ZMod p), (x.2 : ZMod p)⟩

/-! ### Lemmas about the modular core -/

theorem powmodAux_eq (b m : Nat) : ∀ f e, e ≤ f → powmodAux b f e m = (b % m) ^ e % m := by
  intro f
  induction f with
  | zero =>
    intro e he
    have h0 : e = 0 := by omega
    subst h0
    simp [powmodAux]
  | succ f ih =>
    intro e he
    by_cases h0 : e = 0
    · simp [powmodAux, h0]
    · have hrec := ih (e / 2) (by omega)
      have key : (b % m) ^ (e / 2) % m * ((b % m) ^ (e / 2) % m) % m
          = (b % m) ^ (2 * (e / 2)) % m := by
        conv_rhs => rw [two_mul, pow_add, Nat.mul_mod]
      simp only [powmodAux, h0, if_false]
      rw [hrec]
      by_cases hpar : e % 2 = 1
      · rw [if_pos hpar, key, Nat.mod_mul_mod, ← pow_succ]
        have he2 : 2 * (e / 2) + 1 = e := by omega
        rw [he2]
      · rw [if_neg hpar, key]
        have he2 : 2 * (e / 2) = e := by omega
        rw [he2]

theorem powmod_eq (b e m : Nat) : powmod b e m = (b % m) ^ e % m :=
  powmodAux_eq b m e e le_rfl

theorem powmod_eq' (b e m : Nat) : powmod b e m = b ^ e % m := by
  rw [powmod_eq, ← Nat.pow_mod]

theorem powmod_lt (b e : Nat) {m : Nat} (hm : 0 < m) : powmod b e m < m := by
  rw [powmod_eq]; exact Nat.mod_lt _ hm

theorem powmod_cast (p b e : Nat) : ((powmod b e p : Nat) : ZMod p) = (b : ZMod p) ^ e := by
  rw [powmod_eq', ZMod.natCast_mod, Nat.cast_pow]

/-- Two naturals below the modulus that agree in `ZMod p` are equal. -/
theorem zmod_cast_inj {p x y : Nat} (hx : x < p) (hy : y < p)
    (h : (x : ZMod p) = (y : ZMod p)) : x = y := by
  have hvx := ZMod.val_cast_of_lt hx
  have hvy := ZMod.val_cast_of_lt hy
  rw [← hvx, ← hvy, h]

/-- Casting `p - 1` into `ZMod p` yields `-1`. -/
theorem natCast_pred {p : Nat} (hp : 0 < p) : ((p - 1 : Nat) : ZMod p) = -1 := by
  have h : ((p - 1 : Nat) : ZMod p) = (p : ZMod p) - 1 := by
    rw [Nat.cast_sub hp, Nat.cast_one]
  rw [h, ZMod.natCast_self]
  ring

/-! ### Lemmas about the Miller-Rabin embedding -/

theorem split2_succ_even (f : Nat) (d : Int) (h : d.tmod 2 = 0 ∧ d ≠ 0) :
    split2 (f+1) d = ((split2 f (d.tdiv 2)).1, (split2 f (d.tdiv 2)).2 + 1) := by
  simp [split2, h]

theorem split2_succ_stop (f : Nat) (d : Int) (h : ¬ (d.tmod 2 = 0 ∧ d ≠ 0)) :
    split2 (f+1) d = (d, 0) := by
  simp only [split2, if_neg h]

theorem split2_spec : ∀ (f : Nat) (d : Int), d ≠ 0 → d.natAbs ≤ 2 ^ f →
    (split2 f d).1 * 2 ^ (split2 f d).2 = d ∧ ¬ (2 ∣ (split2 f d).1) := by
  intro f
  induction f with
  | zero =>
    intro d hd habs
    have hd1 : d = 1 ∨ d = -1 := by omega
    have hs : split2 0 d = (d, 0) := rfl
    rw [hs]
    rcases hd1 with h | h <;> subst h
    · exact ⟨by ring, by decide⟩
    · exact ⟨by ring, by decide⟩
  | succ f ih =>
    intro d hd habs
    by_cases h : d.tmod 2 = 0 ∧ d ≠ 0
    · have hsum := Int.tmod_add_tdiv d 2
      have h2 : 2 * d.tdiv 2 = d := by omega
      have hhalf : d.tdiv 2 ≠ 0 := by
        intro h0
        rw [h0] at h2
        omega
      have habs2 : (d.tdiv 2).natAbs ≤ 2 ^ f := by
        rw [Int.natAbs_tdiv]
        have h1 : d.natAbs / 2 ≤ 2 ^ (f + 1) / 2 := Nat.div_le_div_right habs
        have h2' : 2 ^ (f + 1) / 2 = 2 ^ f := by
          rw [pow_succ]
          exact Nat.mul_div_cancel _ (by norm_num)
      -- `Int.natAbs_tdiv` yields `Nat.div`, definitionally `/`
        exact le_trans h1 (le_of_eq h2')
      obtain ⟨hprod, hodd⟩ := ih (d.tdiv 2) hhalf habs2
      rw [split2_succ_even f d h]
      refine ⟨?_, hodd⟩
      rw [pow_succ, ← mul_assoc, hprod]
      omega
    · rw [split2_succ_stop f d h]
      refine ⟨mul_one d, ?_⟩
      intro hdvd
      exact h ⟨Int.tmod_eq_zero_of_dvd hdvd, hd⟩

/-- If an element of `ZMod p` other than `±1` has a power-of-two power equal
to `1`, some intermediate power-of-two power equals `-1`, at an index
strictly between `0` and `r`. -/
theorem exists_pow_two_neg_one {p : Nat} [Fact p.Prime] {u : ZMod p}
    (h1 : u ≠ 1) (hn1 : u ≠ -1) :
    ∀ r : Nat, u ^ 2 ^ r = 1 → ∃ m, 1 ≤ m ∧ m < r ∧ u ^ 2 ^ m = -1 := by
  intro r
  induction r with
  | zero =>
    intro hone
    simp only [pow_zero, pow_one] at hone
    exact absurd hone h1
  | succ r ih =>
    intro hone
    have hz : (u ^ 2 ^ r) * (u ^ 2 ^ r) = 1 := by
      rw [← pow_add, ← two_mul, ← pow_succ']
      exact hone
    rcases mul_self_eq_one_iff.mp hz with hz1 | hzn1
    · obtain ⟨m, hm1, hmr, hmv⟩ := ih hz1
      exact ⟨m, hm1, by omega, hmv⟩
    · by_cases hr : r = 0
      · rw [hr] at hzn1
        simp only [pow_zero, pow_one] at hzn1
        exact absurd hzn1 hn1
      · exact ⟨r, by omega, by omega, hzn1⟩

theorem mrSquare_succ (k n x : Nat) :
    mrSquare (k+1) n x =
      (if x * x % n = 1 ∨ x * x % n = n - 1 then x * x % n else mrSquare k n (x * x % n)) := by
  simp only [mrSquare]

/-- The source's inner squaring loop returns `p - 1` on a prime modulus
whenever some admissible power-of-two power of the start value is `-1`. -/
theorem mrSquare_reaches {p : Nat} [Fact p.Prime] (hodd : 2 < p) :
    ∀ (k x m : Nat), x < p → ((x : ZMod p) ≠ 1) → ((x : ZMod p) ≠ -1) →
      1 ≤ m → m ≤ k → ((x : ZMod p) ^ 2 ^ m = -1) → mrSquare k p x = p - 1 := by
  haveI : Fact (2 < p) := ⟨hodd⟩
  intro k
  induction k with
  | zero => intro x m _ _ _ hm1 hmk _; omega
  | succ k ih =>
    intro x m hx h1 hn1 hm1 hmk hpow
    have hp0 : 0 < p := by omega
    have hycast : (((x * x) % p : Nat) : ZMod p) = (x : ZMod p) ^ 2 := by
      rw [ZMod.natCast_mod, Nat.cast_mul, sq]
    have hylt : x * x % p < p := Nat.mod_lt _ hp0
    by_cases hm : m = 1
    · have hsq : (x : ZMod p) ^ 2 = -1 := by
        rw [hm] at hpow
        simpa using hpow
      have hyval : x * x % p = p - 1 := by
        apply zmod_cast_inj hylt (by omega)
        rw [hycast, hsq, natCast_pred hp0]
      rw [mrSquare_succ, if_pos (Or.inr hyval), hyval]
    · have hm2 : 2 ≤ m := by omega
      have hpow2 : ((x : ZMod p) ^ 2) ^ 2 ^ (m - 1) = -1 := by
        rw [← pow_mul, ← pow_succ']
        have : m - 1 + 1 = m := by omega
        rw [this]
        exact hpow
      have hy1 : x * x % p ≠ 1 := by
        intro hcontra
        have hc : ((x : ZMod p)) ^ 2 = 1 := by
          rw [← hycast, hcontra, Nat.cast_one]
        rw [sq] at hc
        rcases mul_self_eq_one_iff.mp hc with h | h
        · exact h1 h
        · exact hn1 h
      have hyn1 : x * x % p ≠ p - 1 := by
        intro hcontra
        have hc : ((x : ZMod p)) ^ 2 = -1 := by
          rw [← hycast, hcontra, natCast_pred hp0]
        rw [hc] at hpow2
        have heven : Even (2 ^ (m - 1)) :=
          ⟨2 ^ (m - 2), by rw [← two_mul, ← pow_succ']; congr 1; omega⟩
        rw [Even.neg_one_pow heven] at hpow2
        exact ZMod.neg_one_ne_one hpow2.symm
      rw [mrSquare_succ, if_neg (by push_neg; exact ⟨hy1, hyn1⟩)]
      apply ih (x * x % p) (m - 1) hylt
      · intro hc
        have : ((x : ZMod p)) ^ 2 = 1 := by rw [← hycast]; exact hc
        rw [sq] at this
        rcases mul_self_eq_one_iff.mp this with h | h
        · exact h1 h
        · exact hn1 h
      · intro hc
        rw [hycast] at hc
        rw [hc] at hpow2
        have heven : Even (2 ^ (m - 1)) :=
          ⟨2 ^ (m - 2), by rw [← two_mul, ← pow_succ']; congr 1; omega⟩
        rw [Even.neg_one_pow heven] at hpow2
        exact ZMod.neg_one_ne_one hpow2.symm
      · omega
      · omega
      · rw [hycast]
        exact hpow2

/-- The source's per-base check accepts every base that is a unit modulo a
prime `p`, given the decomposition `p - 1 = d * 2^r` with `d` odd. -/
theorem mrCheckBase_prime {p : Nat} [Fact p.Prime] (hodd : 2 < p)
    {d r : Nat} (hdr : d * 2 ^ r = p - 1) (hd : ¬ (2 ∣ d))
    {b : Nat} (hb : (b : ZMod p) ≠ 0) : mrCheckBase p d r b = true := by
  have hp0 : 0 < p := by omega
  have hxlt : powmod b d p < p := powmod_lt b d hp0
  have hxcast : ((powmod b d p : Nat) : ZMod p) = (b : ZMod p) ^ d := powmod_cast p b d
  by_cases hx : powmod b d p = 1 ∨ powmod b d p = p - 1
  · simp only [mrCheckBase]
    rw [if_pos hx]
  · push_neg at hx
    have h1 : ((powmod b d p : Nat) : ZMod p) ≠ 1 := by
      intro hc
      exact hx.1 (zmod_cast_inj hxlt (by omega) (by rw [hc, Nat.cast_one]))
    have hn1 : ((powmod b d p : Nat) : ZMod p) ≠ -1 := by
      intro hc
      exact hx.2 (zmod_cast_inj hxlt (by omega) (by rw [hc, natCast_pred hp0]))
    have hfermat : ((powmod b d p : Nat) : ZMod p) ^ 2 ^ r = 1 := by
      rw [hxcast, ← pow_mul, hdr]
      exact ZMod.pow_card_sub_one_eq_one hb
    obtain ⟨m, hm1, hmr, hmv⟩ := exists_pow_two_neg_one h1 hn1 r hfermat
    have hsq : mrSquare (r - 1) p (powmod b d p) = p - 1 :=
      mrSquare_reaches hodd (r - 1) (powmod b d p) m hxlt h1 hn1 hm1 (by omega) hmv
    simp only [mrCheckBase]
    rw [if_neg (by push_neg; exact hx)]
    simp [hsq]

/-- The source's base loop accepts a prime modulus whatever positive bases
are supplied. -/
theorem mrBasesLoop_prime {p : Nat} [Fact p.Prime] (hodd : 2 < p)
    {d r : Nat} (hdr : d * 2 ^ r = p - 1) (hd : ¬ (2 ∣ d)) :
    ∀ bases : List Int, (∀ b ∈ bases, 0 < b) →
      mrBasesLoop (p : Int) d r bases = true := by
  intro bases
  induction bases with
  | nil => intro _; rfl
  | cons b bs ih =>
    intro hb
    have hbpos : 0 < b := hb b (List.mem_cons_self b bs)
    simp only [mrBasesLoop]
    by_cases hg : b ≠ 0 ∧ b < (p : Int)
    · rw [if_pos hg]
      have hbe : b.emod (p : Int) = b := Int.emod_eq_of_lt hbpos.le hg.2
      have hb0lt : (b.emod (p : Int)).toNat < p := by omega
      have hb0pos : 0 < (b.emod (p : Int)).toNat := by omega
      have hbz : (((b.emod (p : Int)).toNat : Nat) : ZMod p) ≠ 0 := by
        intro hc
        have := ZMod.val_cast_of_lt hb0lt
        rw [hc, ZMod.val_zero] at this
        omega
      have hcheck := mrCheckBase_prime hodd hdr hd hbz
      have hpn : ((p : Int)).toNat = p := Int.toNat_natCast p
      rw [hpn, hcheck, if_pos rfl]
      exact ih (fun x hx => hb x (List.mem_cons_of_mem b hx))
    · rw [if_neg hg]

/-- CLAIM C10 — The base-list Miller-Rabin overload is one-sided: a prime
input is never reported composite, whatever positive witness bases are
supplied. -/
theorem mr_bases_one_sided (p : Nat) (hp : p.Prime) (bases : List Int)
    (hb : ∀ b ∈ bases, 0 < b) : miller_rabin_bases (p : Int) bases = true := by
  haveI : Fact p.Prime := ⟨hp⟩
  by_cases hsmall : p = 2 ∨ p = 3
  · rcases hsmall with h | h <;> subst h <;> simp [miller_rabin_bases]
  · push_neg at hsmall
    have hp2 : 2 ≤ p := hp.two_le
    have hp5 : 5 ≤ p := by
      rcases Nat.lt_or_ge p 5 with h | h
      · interval_cases p
        · exact absurd rfl hsmall.1
        · exact absurd rfl hsmall.2
        · exact absurd hp (by decide)
      · exact h
    have hoddp : p % 2 = 1 := Nat.odd_iff.mp (hp.odd_of_ne_two hsmall.1)
    have hne01 : ¬ ((p : Int) = 0 ∨ (p : Int) = 1) := by push_neg; omega
    have hne23 : ¬ ((p : Int) = 2 ∨ (p : Int) = 3) := by push_neg; omega
    have hnodd : ¬ ((p : Int).tmod 2 = 0) := by
      have htm : ((p : Int)).tmod 2 = (p : Int) % 2 :=
        Int.tmod_eq_emod (by positivity) (by norm_num)
      rw [htm]
      omega
    unfold miller_rabin_bases
    rw [if_neg hne01, if_neg hne23, if_neg hnodd]
    have hcast : ((p : Int) - 1) = ((p - 1 : Nat) : Int) := by
      rw [Nat.cast_sub (by omega), Nat.cast_one]
    have hne : ((p : Int) - 1) ≠ 0 := by omega
    have habs : ((p : Int) - 1).natAbs ≤ 2 ^ ((p : Int) - 1).natAbs :=
      (Nat.lt_two_pow _).le
    obtain ⟨hprod, hodd2⟩ :=
      split2_spec ((p : Int) - 1).natAbs ((p : Int) - 1) hne habs
    have h2pos : (0 : Int) < 2 ^ (split2 ((p : Int) - 1).natAbs ((p : Int) - 1)).2 := by
      positivity
    have hs1pos : 0 < (split2 ((p : Int) - 1).natAbs ((p : Int) - 1)).1 := by
      by_contra hcon
      push_neg at hcon
      nlinarith [hprod]
    have hd0 : ((split2 ((p : Int) - 1).natAbs ((p : Int) - 1)).1.toNat : Int)
        = (split2 ((p : Int) - 1).natAbs ((p : Int) - 1)).1 :=
      Int.toNat_of_nonneg hs1pos.le
    have hnat : (split2 ((p : Int) - 1).natAbs ((p : Int) - 1)).1.toNat
        * 2 ^ (split2 ((p : Int) - 1).natAbs ((p : Int) - 1)).2 = p - 1 := by
      have hcastdown : (((split2 ((p : Int) - 1).natAbs ((p : Int) - 1)).1.toNat
          * 2 ^ (split2 ((p : Int) - 1).natAbs ((p : Int) - 1)).2 : Nat) : Int)
          = ((p - 1 : Nat) : Int) := by
        push_cast
        rw [hd0, hprod, hcast]
      exact_mod_cast hcastdown
    have hd0odd : ¬ (2 ∣ (split2 ((p : Int) - 1).natAbs ((p : Int) - 1)).1.toNat) := by
      intro hc
      apply hodd2
      have : ((2 : Nat) : Int) ∣ _ := Int.natCast_dvd_natCast.mpr hc
      rw [hd0] at this
      exact_mod_cast this
    exact mrBasesLoop_prime (by omega) hnat hd0odd bases hb

/-- Witness for C10 at `p = 5` with bases `[31, 73]`. -/
theorem mr_bases_one_sided_witness :
    Nat.Prime 5 ∧ (∀ b ∈ ([31, 73] : List Int), 0 < b) ∧
      miller_rabin_bases (5 : Nat) [31, 73] = true := by
  refine ⟨by norm_num, by decide, ?_⟩
  exact mr_bases_one_sided 5 (by norm_num) [31, 73] (by decide)

/-- The base-list overload rejects `0`, `1`, and every even input other
than `2` and `3`, for any base list. -/
theorem mrb_trivial_false (n : Int) (bases : List Int)
    (h : n = 0 ∨ n = 1 ∨ (n ≠ 2 ∧ n ≠ 3 ∧ n.tmod 2 = 0)) :
    miller_rabin_bases n bases = false := by
  unfold miller_rabin_bases
  split_ifs with hA hB hC
  · rfl
  · exfalso
    rcases h with h | h | ⟨h2, h3, _⟩
    · exact hA (Or.inl h)
    · exact hA (Or.inr h)
    · rcases hB with hB | hB
      · exact h2 hB
      · exact h3 hB
  · rfl
  · exfalso
    rcases h with h | h | ⟨_, _, he⟩
    · exact hA (Or.inl h)
    · exact hA (Or.inr h)
    · exact hC he

/-- The base-list overload accepts every negative odd input when all the
bases are positive: the base loop's guard `bases[i] < n` fails at once. -/
theorem mrb_neg_odd_true (n : Int) (bases : List Int) (hneg : n < 0)
    (hodd : n.tmod 2 ≠ 0) (hb : ∀ b ∈ bases, 0 < b) :
    miller_rabin_bases n bases = true := by
  unfold miller_rabin_bases
  rw [if_neg (by push_neg; omega), if_neg (by push_neg; omega), if_neg hodd]
  cases bases with
  | nil => rfl
  | cons b bs =>
    have hbpos : 0 < b := hb b (List.mem_cons_self b bs)
    show mrBasesLoop n _ _ (b :: bs) = true
    simp only [mrBasesLoop]
    rw [if_neg (by push_neg; intro _; omega)]

/-- CLAIM C6 (amended) — Small-input contract of the threshold overload:
`miller_rabin(n)` returns false for `n = 0`, `n = 1`, and every even `n`
outside `{2, 3}` (negative even included); it returns true for `n = 2`
and `n = 3`; but for negative odd `n` it returns true (the base loop's
guard `bases[i] < n` fails immediately), contrary to the original
claim's "false for every n < 2". -/
theorem mr_small_input_contract (n : Int) :
    ((n = 0 ∨ n = 1) → miller_rabin n = false) ∧
    ((n < 0 ∧ n.tmod 2 = 0) → miller_rabin n = false) ∧
    (miller_rabin 2 = true ∧ miller_rabin 3 = true) ∧
    ((3 < n ∧ n.tmod 2 = 0) → miller_rabin n = false) ∧
    ((n < 0 ∧ n.tmod 2 ≠ 0) → miller_rabin n = true) := by
  refine ⟨?_, ?_, ⟨by decide, by decide⟩, ?_, ?_⟩
  · intro h
    unfold miller_rabin
    split_ifs <;>
      exact mrb_trivial_false n _ (Or.imp id Or.inl h)
  · intro h
    unfold miller_rabin
    split_ifs <;>
      exact mrb_trivial_false n _ (Or.inr (Or.inr ⟨by omega, by omega, h.2⟩))
  · intro h
    unfold miller_rabin
    split_ifs <;>
      exact mrb_trivial_false n _ (Or.inr (Or.inr ⟨by omega, by omega, h.2⟩))
  · intro h
    unfold miller_rabin
    split_ifs <;>
      exact mrb_neg_odd_true n _ h.1 h.2 (by decide)

/-- Counterexample to C6 as stated: `-3` is less than `2`, yet the
threshold overload returns true on it, not false. -/
theorem mr_small_input_counterexample :
    (-3 : Int) < 2 ∧ miller_rabin (-3) ≠ false := by
  exact ⟨by decide, by decide⟩

/-- Witness for the amended C6 at `n = -4` (negative even) and `n = -3`
(negative odd). -/
theorem mr_small_input_contract_witness :
    ((-4 : Int) < 0 ∧ (-4 : Int).tmod 2 = 0 ∧ miller_rabin (-4) = false) ∧
    ((-3 : Int) < 0 ∧ (-3 : Int).tmod 2 ≠ 0 ∧ miller_rabin (-3) = true) := by
  refine ⟨⟨by decide, by decide, ?_⟩, ⟨by decide, by decide, ?_⟩⟩
  · exact (mr_small_input_contract (-4)).2.1 ⟨by decide, by decide⟩
  · exact (mr_small_input_contract (-3)).2.2.2.2 ⟨by decide, by decide⟩

/-! ### Ground-truth primality lemmas and the bounded Miller-Rabin check -/

/-- Soundness of the trial-division loop: a true answer rules out every odd
divisor from `d` up to the square root. -/
theorem tdOdd_sound (n : Nat) : ∀ f d, d % 2 = 1 → tdOdd n f d = true →
    ∀ m, d ≤ m → m % 2 = 1 → m * m ≤ n → ¬ m ∣ n := by
  intro f
  induction f with
  | zero =>
    intro d hd ht m hdm hm hmn hdvd
    have : n < d * d := of_decide_eq_true ht
    nlinarith
  | succ f ih =>
    intro d hd ht m hdm hm hmn hdvd
    simp only [tdOdd] at ht
    split_ifs at ht with h1 h2
    · nlinarith
    · rcases Nat.eq_or_lt_of_le hdm with heq | hlt
      · subst heq
        obtain ⟨k, rfl⟩ := hdvd
        exact h2 (Nat.mul_mod_right d k)
      · have hm2 : d + 2 ≤ m := by omega
        exact ih (d + 2) (by omega) ht m hm2 hm hmn hdvd

/-- Completeness of the trial-division loop: if no odd `m ≥ d` with
`m * m ≤ n` divides `n`, the loop answers true, provided the fuel is
large enough (`n < (d + 2*f)^2`). -/
theorem tdOdd_complete (n : Nat) : ∀ f d, d % 2 = 1 → n < (d + 2 * f) * (d + 2 * f) →
    (∀ m, d ≤ m → m % 2 = 1 → m * m ≤ n → ¬ m ∣ n) → tdOdd n f d = true := by
  intro f
  induction f with
  | zero =>
    intro d hd hfuel hnd
    simp only [tdOdd]
    rw [decide_eq_true_eq]
    simpa using hfuel
  | succ f ih =>
    intro d hd hfuel hnd
    simp only [tdOdd]
    split_ifs with h1 h2
    · rfl
    · exact absurd (hnd d le_rfl hd (by omega) (Nat.dvd_of_mod_eq_zero h2)) (by simp)
    · apply ih (d + 2) (by omega) (by nlinarith)
      intro m hm hmo hmn
      exact hnd m (by omega) hmo hmn

/-- The verification-side Boolean primality test agrees with `Nat.Prime`. -/
theorem isPrimeB_iff (n : Nat) : isPrimeB n = true ↔ n.Prime := by
  constructor
  · intro h
    unfold isPrimeB at h
    split_ifs at h with h1 h2 h3
    · interval_cases n
      · exact Nat.prime_two
      · exact Nat.prime_three
    · have hodd : n % 2 = 1 := by omega
      rw [Nat.prime_def_le_sqrt]
      refine ⟨by omega, ?_⟩
      intro m hm2 hmsq hdvd
      have hmm : m * m ≤ n := Nat.le_sqrt.mp hmsq
      rcases Nat.even_or_odd m with hme | hmo
      · obtain ⟨k, hk⟩ := hme
        have h2n : 2 ∣ n := Dvd.dvd.trans ⟨k, by omega⟩ hdvd
        omega
      · have hmo1 : m % 2 = 1 := Nat.odd_iff.mp hmo
        have hm3 : 3 ≤ m := by omega
        exact tdOdd_sound n n 3 (by omega) h m hm3 hmo1 hmm hdvd
  · intro hp
    have h2 := hp.two_le
    unfold isPrimeB
    split_ifs with h1 h2' h3
    · omega
    · rfl
    · exfalso
      have hdvd2 : (2 : Nat) ∣ n := Nat.dvd_of_mod_eq_zero h3
      rcases Nat.Prime.eq_one_or_self_of_dvd hp 2 hdvd2 with hc | hc
      · omega
      · omega
    · apply tdOdd_complete n n 3 (by omega) (by nlinarith)
      intro m hm3 hmo hmn hdvd
      rcases Nat.Prime.eq_one_or_self_of_dvd hp m hdvd with h | h
      · omega
      · subst h
        nlinarith

theorem checkRange_sound : ∀ f lo hi, checkRange f lo hi = true →
    ∀ n, lo ≤ n → n < hi → mrAgrees n = true := by
  intro f
  induction f with
  | zero =>
    intro lo hi h n hlo hhi
    have : hi ≤ lo := of_decide_eq_true h
    omega
  | succ f ih =>
    intro lo hi h n hlo hhi
    simp only [checkRange] at h
    split_ifs at h with h1 h2
    · omega
    · have : n = lo := by omega
      subst this
      exact h
    · rw [Bool.and_eq_true] at h
      rcases Nat.lt_or_ge n ((lo + hi) / 2) with hn | hn
      · exact ih lo ((lo + hi) / 2) h.1 n hlo hn
      · exact ih ((lo + hi) / 2) hi h.2 n hn hhi

/-- The heavy bounded computation: the threshold Miller-Rabin overload
agrees with ground-truth primality on all of `[2, 2600)`, which covers the
whole first witness-set range `[2, 2047)` and the start of the `{31, 73}`
range, including the boundary case `2047` itself. -/
theorem checkRange_2600 : checkRange 13 2 2600 = true := by decide

/-- Partial verification for C1: on `[2, 2600)` the threshold overload
returns true exactly on the primes.  (The claim's full range `[2, 10^6]`
is beyond the reach of kernel computation in this development.) -/
theorem mr_matches_primality_below_2600 (n : Nat) (h2 : 2 ≤ n) (hlt : n < 2600) :
    (miller_rabin (n : Int) = true ↔ n.Prime) := by
  have hag := checkRange_sound 13 2 2600 checkRange_2600 n h2 hlt
  unfold mrAgrees at hag
  rw [beq_iff_eq] at hag
  rw [← isPrimeB_iff]
  unfold mrN at hag
  rw [hag]

/-- The concrete example from C1: `2047 = 23 * 89` is a strong pseudoprime
to base 2, but the threshold overload already uses `{31, 73}` at `2047`
and correctly reports composite. -/
theorem mr_2047_false : miller_rabin 2047 = false := by decide

/-- Witness for the bounded C1 theorem at `n = 2053` (a prime in the
`{31, 73}` witness range). -/
theorem mr_matches_primality_below_2600_witness :
    2 ≤ 2053 ∧ 2053 < 2600 ∧ (miller_rabin (2053 : Nat) = true ↔ Nat.Prime 2053) := by
  exact ⟨by norm_num, by norm_num, mr_matches_primality_below_2600 2053 (by norm_num) (by norm_num)⟩

/-! ### Lemmas about the Chinese remainder embedding -/

theorem xgcdAuxF_spec : ∀ (f : Nat) (a b : Int), 0 ≤ a → 0 ≤ b → b.toNat ≤ f →
    (xgcdAuxF f a b).1 = ((Int.gcd a b : Nat) : Int) ∧
    (xgcdAuxF f a b).2.1 * a + (xgcdAuxF f a b).2.2 * b = ((Int.gcd a b : Nat) : Int) := by
  intro f
  induction f with
  | zero =>
    intro a b ha hb hf
    have hb0 : b = 0 := by omega
    subst hb0
    constructor
    · show a = _
      rw [Int.gcd_zero_right, Int.natAbs_of_nonneg ha]
    · show 1 * a + 0 * 0 = _
      rw [Int.gcd_zero_right, Int.natAbs_of_nonneg ha]
      ring
  | succ f ih =>
    intro a b ha hb hf
    by_cases hb0 : b = 0
    · subst hb0
      constructor
      · show a = _
        rw [Int.gcd_zero_right, Int.natAbs_of_nonneg ha]
      · show 1 * a + 0 * 0 = _
        rw [Int.gcd_zero_right, Int.natAbs_of_nonneg ha]
        ring
    · have hbpos : 0 < b := lt_of_le_of_ne hb (Ne.symm hb0)
      have hr0 : 0 ≤ a.tmod b := Int.tmod_nonneg b ha
      have hrlt : a.tmod b < b := Int.tmod_lt_of_pos a hbpos
      have hrf : (a.tmod b).toNat ≤ f := by omega
      obtain ⟨ihg, ihbez⟩ := ih b (a.tmod b) hb hr0 hrf
      have hgcd : Int.gcd b (a.tmod b) = Int.gcd a b := by
        have hmodeq : (a.tmod b) = a % b := Int.tmod_eq_emod ha hb
        unfold Int.gcd
        rw [hmodeq]
        have haN : a.natAbs = a.toNat := by omega
        have hbN : b.natAbs = b.toNat := by omega
        have hrN : (a % b).natAbs = a.toNat % b.toNat := by
          have h1 : (a % b) = ((a.toNat % b.toNat : Nat) : Int) := by
            have ha2 : a = ((a.toNat : Nat) : Int) := by omega
            have hb2 : b = ((b.toNat : Nat) : Int) := by omega
            conv_lhs => rw [ha2, hb2]
            rw [← Int.ofNat_emod]
          rw [h1]
          omega
        rw [haN, hbN, hrN]
        rw [Nat.gcd_comm a.toNat b.toNat, Nat.gcd_rec b.toNat a.toNat, Nat.gcd_comm]
      have hstep0 : (xgcdAuxF (f+1) a b).1 = (xgcdAuxF f b (a.tmod b)).1 := by
        simp [xgcdAuxF, hb0]
      have hstep1 : (xgcdAuxF (f+1) a b).2.1 = (xgcdAuxF f b (a.tmod b)).2.2 := by
        simp [xgcdAuxF, hb0]
      have hstep2 : (xgcdAuxF (f+1) a b).2.2
          = (xgcdAuxF f b (a.tmod b)).2.1 - a.tdiv b * (xgcdAuxF f b (a.tmod b)).2.2 := by
        simp [xgcdAuxF, hb0]
      constructor
      · rw [hstep0, ihg, hgcd]
      · have hsum := Int.tmod_add_tdiv a b
        rw [hstep1, hstep2, ← hgcd, ← ihbez]
        have hq : a.tmod b = a - b * a.tdiv b := by omega
        rw [hq]
        ring

theorem gcd_ex_spec (a b : Int) (ha : 0 ≤ a) (hb : 0 ≤ b) :
    (gcd_ex a b).1 = ((Int.gcd a b : Nat) : Int) ∧
    (gcd_ex a b).2.1 * a + (gcd_ex a b).2.2 * b = ((Int.gcd a b : Nat) : Int) :=
  xgcdAuxF_spec (b.toNat + 1) a b ha hb (by omega)

theorem int_tmod_eq_zero_iff (x g : Int) : x.tmod g = 0 ↔ g ∣ x := by
  constructor
  · intro h
    have hsum := Int.tmod_add_tdiv x g
    exact ⟨x.tdiv g, by omega⟩
  · exact Int.tmod_eq_zero_of_dvd

/-- CLAIM C3 — For coprime positive moduli, `chinese_remainder` returns
`(a, n)` with `n = lcm(n1,n2) = n1*n2`, `a ≡ a1 (mod n1)`,
`a ≡ a2 (mod n2)` and `0 ≤ a < n`; in particular
`chinese_remainder(2, 3, 3, 5) = (8, 15)`. -/
theorem chinese_remainder_coprime_correct :
    (∀ a1 n1 a2 n2 : Int, 0 < n1 → 0 < n2 → Int.gcd n1 n2 = 1 →
      (chinese_remainder2 a1 n1 a2 n2).2 = n1 * n2 ∧
      ((Int.lcm n1 n2 : Nat) : Int) = n1 * n2 ∧
      (chinese_remainder2 a1 n1 a2 n2).1 % n1 = a1 % n1 ∧
      (chinese_remainder2 a1 n1 a2 n2).1 % n2 = a2 % n2 ∧
      0 ≤ (chinese_remainder2 a1 n1 a2 n2).1 ∧
      (chinese_remainder2 a1 n1 a2 n2).1 < (chinese_remainder2 a1 n1 a2 n2).2) ∧
    chinese_remainder2 2 3 3 5 = (8, 15) := by
  constructor
  · intro a1 n1 a2 n2 h1 h2 hcop
    obtain ⟨hg, hbez⟩ := gcd_ex_spec n1 n2 h1.le h2.le
    rw [hcop] at hg hbez
    rw [Nat.cast_one] at hg hbez
    have hNpos : (0 : Int) < n1 * n2 := mul_pos h1 h2
    have hNne : n1 * n2 ≠ 0 := ne_of_gt hNpos
    have hcr : chinese_remainder2 a1 n1 a2 n2 =
        ((a1 * (gcd_ex n1 n2).2.2 % n1 * n2 % (n1 * n2)
          + a2 * (gcd_ex n1 n2).2.1 % n2 * n1 % (n1 * n2)) % (n1 * n2), n1 * n2) := by
      simp only [chinese_remainder2, modulo_multiply, modulo_normalize, hg,
        Int.tmod_one, Int.tdiv_one, mul_one, ne_eq, not_true_eq_false, if_false]
    have hcop2 : Nat.Coprime n1.natAbs n2.natAbs := hcop
    refine ⟨by rw [hcr], ?_, ?_, ?_, ?_, ?_⟩
    · rw [Int.lcm_def, Nat.Coprime.lcm_eq_mul hcop2]
      push_cast
      rw [abs_of_pos h1, abs_of_pos h2]
    · rw [hcr]
      show (_ + _) % (n1 * n2) % n1 = _
      rw [Int.emod_emod_of_dvd _ (dvd_mul_right n1 n2)]
      rw [Int.add_emod]
      rw [Int.emod_emod_of_dvd _ (dvd_mul_right n1 n2),
        Int.emod_emod_of_dvd _ (dvd_mul_right n1 n2)]
      rw [Int.mul_emod_left (a2 * (gcd_ex n1 n2).2.1 % n2) n1, add_zero]
      rw [Int.emod_emod_of_dvd _ (dvd_refl n1)]
      rw [Int.mul_emod, Int.emod_emod_of_dvd _ (dvd_refl n1), ← Int.mul_emod]
      have hb2 : (gcd_ex n1 n2).2.2 * n2 = 1 - (gcd_ex n1 n2).2.1 * n1 := by linarith
      have hrw : a1 * (gcd_ex n1 n2).2.2 * n2 = a1 + n1 * -(a1 * (gcd_ex n1 n2).2.1) := by
        rw [mul_assoc, hb2]
        ring
      rw [hrw, Int.add_mul_emod_self_left]
    · rw [hcr]
      show (_ + _) % (n1 * n2) % n2 = _
      rw [Int.emod_emod_of_dvd _ (dvd_mul_left n2 n1)]
      rw [Int.add_emod]
      rw [Int.emod_emod_of_dvd _ (dvd_mul_left n2 n1),
        Int.emod_emod_of_dvd _ (dvd_mul_left n2 n1)]
      rw [Int.mul_emod_left (a1 * (gcd_ex n1 n2).2.2 % n1) n2, zero_add]
      rw [Int.emod_emod_of_dvd _ (dvd_refl n2)]
      rw [Int.mul_emod, Int.emod_emod_of_dvd _ (dvd_refl n2), ← Int.mul_emod]
      have hb1 : (gcd_ex n1 n2).2.1 * n1 = 1 - (gcd_ex n1 n2).2.2 * n2 := by linarith
      have hrw : a2 * (gcd_ex n1 n2).2.1 * n1 = a2 + n2 * -(a2 * (gcd_ex n1 n2).2.2) := by
        rw [mul_assoc, hb1]
        ring
      rw [hrw, Int.add_mul_emod_self_left]
    · rw [hcr]
      exact Int.emod_nonneg _ hNne
    · rw [hcr]
      exact Int.emod_lt_of_pos _ hNpos
  · decide

/-- Witness for the universally quantified part of C3 at
`(a1, n1, a2, n2) = (2, 3, 3, 5)`. -/
theorem chinese_remainder_coprime_correct_witness :
    (0 : Int) < 3 ∧ (0 : Int) < 5 ∧ Int.gcd 3 5 = 1 ∧
      ((chinese_remainder2 2 3 3 5).2 = 3 * 5 ∧
      ((Int.lcm 3 5 : Nat) : Int) = 3 * 5 ∧
      (chinese_remainder2 2 3 3 5).1 % 3 = 2 % 3 ∧
      (chinese_remainder2 2 3 3 5).1 % 5 = 3 % 5 ∧
      0 ≤ (chinese_remainder2 2 3 3 5).1 ∧
      (chinese_remainder2 2 3 3 5).1 < (chinese_remainder2 2 3 3 5).2) := by
  refine ⟨by decide, by decide, by decide, ?_⟩
  exact chinese_remainder_coprime_correct.1 2 3 3 5 (by decide) (by decide) (by decide)

/-- CLAIM C4 — For positive (not necessarily coprime) moduli,
`chinese_remainder` returns the sentinel `(0, 0)` exactly when
`gcd(n1,n2)` does not divide `a2 - a1`, which happens exactly when the
congruence system has no solution.  (The embedding is a total function:
no exception exists.) -/
theorem chinese_remainder_sentinel :
    ∀ a1 n1 a2 n2 : Int, 0 < n1 → 0 < n2 →
      ((chinese_remainder2 a1 n1 a2 n2 = (0, 0)) ↔
        ¬ (((Int.gcd n1 n2 : Nat) : Int) ∣ (a2 - a1))) ∧
      ((((Int.gcd n1 n2 : Nat) : Int) ∣ (a2 - a1)) ↔
        ∃ x : Int, x ≡ a1 [ZMOD n1] ∧ x ≡ a2 [ZMOD n2]) := by
  intro a1 n1 a2 n2 h1 h2
  obtain ⟨hg, hbez⟩ := gcd_ex_spec n1 n2 h1.le h2.le
  have hgcdpos : 0 < Int.gcd n1 n2 := Int.gcd_pos_of_ne_zero_left n2 (ne_of_gt h1)
  have hgpos : (0 : Int) < (gcd_ex n1 n2).1 := by
    rw [hg]
    exact_mod_cast hgcdpos
  constructor
  · by_cases hdvd : ((Int.gcd n1 n2 : Nat) : Int) ∣ (a2 - a1)
    · have hm0 : (a2 - a1).tmod (gcd_ex n1 n2).1 = 0 := by
        rw [hg]
        exact (int_tmod_eq_zero_iff _ _).mpr hdvd
      have hcr2 : (chinese_remainder2 a1 n1 a2 n2).2
          = n1.tdiv (gcd_ex n1 n2).1 * n2.tdiv (gcd_ex n1 n2).1 * (gcd_ex n1 n2).1 := by
        simp only [chinese_remainder2, modulo_multiply, modulo_normalize, hm0,
          ne_eq, not_true_eq_false, if_false]
      have hdvd1 : (gcd_ex n1 n2).1 ∣ n1 := by
        rw [hg]
        exact Int.gcd_dvd_left
      have hdvd2 : (gcd_ex n1 n2).1 ∣ n2 := by
        rw [hg]
        exact Int.gcd_dvd_right
      have ht1 : n1.tdiv (gcd_ex n1 n2).1 * (gcd_ex n1 n2).1 = n1 := by
        rw [Int.tdiv_eq_ediv h1.le hgpos.le]
        exact Int.ediv_mul_cancel hdvd1
      have ht2 : n2.tdiv (gcd_ex n1 n2).1 * (gcd_ex n1 n2).1 = n2 := by
        rw [Int.tdiv_eq_ediv h2.le hgpos.le]
        exact Int.ediv_mul_cancel hdvd2
      have hq1pos : 0 < n1.tdiv (gcd_ex n1 n2).1 := by nlinarith
      have hq2pos : 0 < n2.tdiv (gcd_ex n1 n2).1 := by nlinarith
      have hN : 0 < (chinese_remainder2 a1 n1 a2 n2).2 := by
        rw [hcr2]
        positivity
      constructor
      · intro hpair
        have : (chinese_remainder2 a1 n1 a2 n2).2 = 0 := by rw [hpair]
        omega
      · intro hndvd
        exact absurd hdvd hndvd
    · have hm0 : (a2 - a1).tmod (gcd_ex n1 n2).1 ≠ 0 := by
        rw [hg]
        intro hc
        exact hdvd ((int_tmod_eq_zero_iff _ _).mp hc)
      have hcr : chinese_remainder2 a1 n1 a2 n2 = (0, 0) := by
        simp only [chinese_remainder2, ne_eq, hm0, not_false_eq_true, if_true]
      simp [hcr, hdvd]
  · constructor
    · intro hdvd
      obtain ⟨t, ht⟩ := hdvd
      refine ⟨a1 + n1 * ((gcd_ex n1 n2).2.1 * t), ?_, ?_⟩
      · rw [Int.modEq_iff_dvd]
        exact ⟨-((gcd_ex n1 n2).2.1 * t), by ring⟩
      · rw [Int.modEq_iff_dvd]
        refine ⟨(gcd_ex n1 n2).2.2 * t, ?_⟩
        linear_combination ht - t * hbez
    · rintro ⟨x, hx1, hx2⟩
      have d1 : n1 ∣ a1 - x := Int.modEq_iff_dvd.mp hx1
      have d2 : n2 ∣ a2 - x := Int.modEq_iff_dvd.mp hx2
      have g1 : ((Int.gcd n1 n2 : Nat) : Int) ∣ a1 - x :=
        dvd_trans Int.gcd_dvd_left d1
      have g2 : ((Int.gcd n1 n2 : Nat) : Int) ∣ a2 - x :=
        dvd_trans Int.gcd_dvd_right d2
      have : a2 - a1 = (a2 - x) - (a1 - x) := by ring
      rw [this]
      exact dvd_sub g2 g1

/-- Witness for C4 at the inconsistent system `x ≡ 2 (mod 4), x ≡ 3 (mod 6)`. -/
theorem chinese_remainder_sentinel_witness :
    (0 : Int) < 4 ∧ (0 : Int) < 6 ∧
      (chinese_remainder2 2 4 3 6 = (0, 0) ↔
        ¬ (((Int.gcd 4 6 : Nat) : Int) ∣ (3 - 2))) := by
  exact ⟨by decide, by decide, (chinese_remainder_sentinel 2 4 3 6 (by decide) (by decide)).1⟩

/-! ### Lemmas about Pollard rho -/

theorem prLoop_spec (n a : Nat) : ∀ f x y,
    prLoop n a f x y ∣ n ∧ (prLoop n a f x y = n ∨ 2 ≤ prLoop n a f x y) := by
  intro f
  induction f with
  | zero => intro x y; exact ⟨dvd_refl n, Or.inl rfl⟩
  | succ f ih =>
    intro x y
    simp only [prLoop]
    split_ifs with hd
    · exact ih _ _
    · have key : ∀ d : Nat, d ∣ n → d ≠ 1 → d = n ∨ 2 ≤ d := by
        intro d hdvd hne
        rcases Nat.eq_zero_or_pos d with h0 | h1
        · subst h0
          left
          symm
          exact Nat.eq_zero_of_zero_dvd hdvd
        · right
          omega
      exact ⟨Nat.gcd_dvd_right _ n, key _ (Nat.gcd_dvd_right _ n) hd⟩

theorem pollard_rho_spec (n k a fuel : Nat) :
    pollard_rho n k a fuel ∣ n ∧ (pollard_rho n k a fuel = n ∨ 2 ≤ pollard_rho n k a fuel) := by
  unfold pollard_rho
  split_ifs with h0 h1 h2
  · subst h0; exact ⟨dvd_refl 0, Or.inl rfl⟩
  · subst h1; exact ⟨dvd_refl 1, Or.inl rfl⟩
  · exact ⟨Nat.dvd_of_mod_eq_zero h2, Or.inr le_rfl⟩
  · exact prLoop_spec n a fuel _ _

theorem prrAux_spec (n fuel : Nat) : ∀ c k,
    prrAux n fuel c k ∣ n ∧ (prrAux n fuel c k = n ∨ 2 ≤ prrAux n fuel c k) := by
  intro c
  induction c with
  | zero => intro k; exact ⟨dvd_refl n, Or.inl rfl⟩
  | succ c ih =>
    intro k
    simp only [prrAux]
    split_ifs with hd
    · exact pollard_rho_spec n k k fuel
    · exact ih (k + 1)

theorem pollard_rho_repeated_spec (n maxIter fuel : Nat) :
    pollard_rho_repeated n maxIter fuel ∣ n ∧
      (pollard_rho_repeated n maxIter fuel = n ∨ 2 ≤ pollard_rho_repeated n maxIter fuel) :=
  prrAux_spec n fuel (maxIter - 1) 2

theorem prrAux_characterize (n fuel : Nat) : ∀ c k0,
    (prrAux n fuel c k0 = n ∧ ∀ k, k0 ≤ k → k < k0 + c → pollard_rho n k k fuel = n) ∨
    (∃ j, k0 ≤ j ∧ j < k0 + c ∧ pollard_rho n j j fuel ≠ n ∧
      (∀ k, k0 ≤ k → k < j → pollard_rho n k k fuel = n) ∧
      prrAux n fuel c k0 = pollard_rho n j j fuel) := by
  intro c
  induction c with
  | zero =>
    intro k0
    left
    exact ⟨rfl, fun k hk1 hk2 => by omega⟩
  | succ c ih =>
    intro k0
    simp only [prrAux]
    split_ifs with hd
    · right
      exact ⟨k0, le_rfl, by omega, hd, fun k hk1 hk2 => by omega, rfl⟩
    · push_neg at hd
      rcases ih (k0 + 1) with ⟨hres, hall⟩ | ⟨j, hj1, hj2, hj3, hj4, hj5⟩
      · left
        refine ⟨hres, fun k hk1 hk2 => ?_⟩
        rcases Nat.eq_or_lt_of_le hk1 with heq | hlt
        · rw [← heq]; exact hd
        · exact hall k (by omega) (by omega)
      · right
        refine ⟨j, by omega, by omega, hj3, fun k hk1 hk2 => ?_, hj5⟩
        rcases Nat.eq_or_lt_of_le hk1 with heq | hlt
        · rw [← heq]; exact hd
        · exact hj4 k (by omega) hk2

/-- CLAIM C7 — `pollard_rho` on an odd composite returns a divisor of `n`
that is either non-trivial (`1 < d < n`) or the failure value `n` itself;
`pollard_rho_repeated` returns the first non-trivial result of
`pollard_rho(n, k, k)` for `k = 2, ..., max_iter`, else `n`. -/
theorem pollard_rho_correct :
    (∀ n k a fuel : Nat, Odd n → 1 < n → ¬ n.Prime →
      pollard_rho n k a fuel ∣ n ∧
        (pollard_rho n k a fuel = n ∨
          (1 < pollard_rho n k a fuel ∧ pollard_rho n k a fuel < n))) ∧
    (∀ n maxIter fuel : Nat,
      (pollard_rho_repeated n maxIter fuel = n ∧
        ∀ k, 2 ≤ k → k ≤ maxIter → pollard_rho n k k fuel = n) ∨
      (∃ j, 2 ≤ j ∧ j ≤ maxIter ∧ pollard_rho n j j fuel ≠ n ∧
        (∀ k, 2 ≤ k → k < j → pollard_rho n k k fuel = n) ∧
        pollard_rho_repeated n maxIter fuel = pollard_rho n j j fuel)) := by
  constructor
  · intro n k a fuel hodd hn1 hnp
    obtain ⟨hdvd, hcase⟩ := pollard_rho_spec n k a fuel
    refine ⟨hdvd, ?_⟩
    rcases hcase with h | h
    · exact Or.inl h
    · by_cases hne : pollard_rho n k a fuel = n
      · exact Or.inl hne
      · right
        have hle : pollard_rho n k a fuel ≤ n := Nat.le_of_dvd (by omega) hdvd
        exact ⟨by omega, by omega⟩
  · intro n maxIter fuel
    unfold pollard_rho_repeated
    rcases prrAux_characterize n fuel (maxIter - 1) 2 with ⟨hres, hall⟩ | ⟨j, hj1, hj2, hj3, hj4, hj5⟩
    · left
      exact ⟨hres, fun k hk1 hk2 => hall k hk1 (by omega)⟩
    · right
      exact ⟨j, hj1, by omega, hj3, hj4, hj5⟩

/-- Witness for C7 at `n = 45`, `k = a = 2`, fuel 1000000. -/
theorem pollard_rho_correct_witness :
    Odd 45 ∧ 1 < 45 ∧ ¬ Nat.Prime 45 ∧
      (pollard_rho 45 2 2 1000000 ∣ 45 ∧
        (pollard_rho 45 2 2 1000000 = 45 ∨
          (1 < pollard_rho 45 2 2 1000000 ∧ pollard_rho 45 2 2 1000000 < 45))) := by
  refine ⟨by decide, by decide, by decide, ?_⟩
  exact pollard_rho_correct.1 45 2 2 1000000 (by decide) (by decide) (by decide)

/-! ### Lemmas about the factorization engine -/

theorem extractPow_fst_mul_pow (a : Nat) : ∀ f b,
    (extractPow a f b).1 * a ^ (extractPow a f b).2 = b := by
  intro f
  induction f with
  | zero => intro b; simp [extractPow]
  | succ f ih =>
    intro b
    simp only [extractPow]
    split_ifs with h
    · have hdvd : a ∣ b := Nat.dvd_of_mod_eq_zero h.2.2
      have := ih (b / a)
      calc (extractPow a f (b / a)).1 * a ^ ((extractPow a f (b / a)).2 + 1)
          = ((extractPow a f (b / a)).1 * a ^ (extractPow a f (b / a)).2) * a := by
            rw [pow_succ]; ring
        _ = (b / a) * a := by rw [this]
        _ = b := Nat.div_mul_cancel hdvd
    · simp

theorem extractPow_fst_le (a : Nat) : ∀ f b, (extractPow a f b).1 ≤ b := by
  intro f
  induction f with
  | zero => intro b; simp [extractPow]
  | succ f ih =>
    intro b
    simp only [extractPow]
    split_ifs with h
    · exact le_trans (ih (b / a)) (Nat.div_le_self b a)
    · simp

theorem extractPow_fst_pos (a f b : Nat) (hb : 1 ≤ b) : 1 ≤ (extractPow a f b).1 := by
  by_contra hc
  push_neg at hc
  have h0 : (extractPow a f b).1 = 0 := by omega
  have := extractPow_fst_mul_pow a f b
  rw [h0, zero_mul] at this
  omega

theorem extractPow_not_dvd (a : Nat) : ∀ f b, 2 ≤ a → 1 ≤ b → b ≤ f →
    ¬ a ∣ (extractPow a f b).1 := by
  intro f
  induction f with
  | zero => intro b _ h1 h2; omega
  | succ f ih =>
    intro b ha hb hf
    simp only [extractPow]
    split_ifs with h
    · have hdvd : a ∣ b := Nat.dvd_of_mod_eq_zero h.2.2
      have hble : a ≤ b := Nat.le_of_dvd (by omega) hdvd
      have hq1 : 1 ≤ b / a := Nat.one_le_div_iff (by omega) |>.mpr hble
      have hq2 : b / a ≤ f := by
        have hh : b / a ≤ b / 2 := Nat.div_le_div_left ha (by omega)
        have : b / 2 < b := Nat.div_lt_self (by omega) (by omega)
        omega
      exact ih (b / a) ha hq1 hq2
    · intro hdvd
      obtain ⟨k, rfl⟩ := hdvd
      exact h ⟨ha, by omega, Nat.mul_mod_right a k⟩

theorem extractPow_snd_pos (a f b : Nat) (h2 : 2 ≤ a) (hb : b ≠ 0) (hm : b % a = 0)
    (hf : 1 ≤ f) : 1 ≤ (extractPow a f b).2 := by
  cases f with
  | zero => omega
  | succ f =>
    simp only [extractPow]
    rw [if_pos ⟨h2, hb, hm⟩]
    omega

theorem extractAll_prod (a : Nat) : ∀ q : List Nat,
    (extractAll a q).1.prod * a ^ (extractAll a q).2 = q.prod := by
  intro q
  induction q with
  | nil => simp [extractAll]
  | cons b q ih =>
    simp only [extractAll, List.prod_cons]
    have hb := extractPow_fst_mul_pow a b b
    calc ((extractPow a b b).1 :: (extractAll a q).1).prod
          * a ^ ((extractPow a b b).2 + (extractAll a q).2)
        = ((extractPow a b b).1 * a ^ (extractPow a b b).2)
          * ((extractAll a q).1.prod * a ^ (extractAll a q).2) := by
          rw [List.prod_cons, pow_add]; ring
      _ = b * q.prod := by rw [hb, ih]

theorem extractAll_measure (a : Nat) : ∀ q : List Nat,
    ((extractAll a q).1.map (fun x => x - 1)).sum ≤ (q.map (fun x => x - 1)).sum ∧
    (extractAll a q).1.length = q.length := by
  intro q
  induction q with
  | nil => simp [extractAll]
  | cons b q ih =>
    simp only [extractAll, List.map_cons, List.sum_cons, List.length_cons]
    have hle := extractPow_fst_le a b b
    exact ⟨by omega, by omega⟩

theorem stackMeasure_cons (a : Nat) (q : List Nat) :
    stackMeasure (a :: q) = 2 * (a - 1) + 1 + stackMeasure q := by
  simp only [stackMeasure, List.map_cons, List.sum_cons, List.length_cons]
  ring

theorem prrAux_zero (fuel : Nat) : ∀ c k, prrAux 0 fuel c k = 0 := by
  intro c
  induction c with
  | zero => intro k; rfl
  | succ c ih =>
    intro k
    simp only [prrAux]
    have h0 : pollard_rho 0 k k fuel = 0 := rfl
    rw [h0, if_neg (by omega)]
    exact ih (k + 1)

theorem prr_zero (maxIter fuel : Nat) : pollard_rho_repeated 0 maxIter fuel = 0 :=
  prrAux_zero fuel (maxIter - 1) 2

theorem mrN_zero : mrN 0 = false := by decide

theorem fiLoopF_prod (maxIter ifuel : Nat) : ∀ f q vf,
    prodPE (fiLoopF maxIter ifuel f q vf) = q.prod * prodPE vf := by
  intro f
  induction f with
  | zero =>
    intro q vf
    simp only [fiLoopF, prodPE, List.map_append, List.prod_append, List.map_map]
    have : ((fun pe : Nat × Nat => pe.1 ^ pe.2) ∘ fun a => (a, 1)) = fun a : Nat => a := by
      funext a
      simp
    rw [this]
    simp [mul_comm]
  | succ f ih =>
    intro q vf
    cases q with
    | nil => simp [fiLoopF, prodPE]
    | cons a q =>
      simp only [fiLoopF]
      split_ifs with h1 h2 h3
      · rw [ih]
        simp [h1]
      · rw [ih]
        have hq := extractAll_prod a q
        simp only [prodPE, List.map_append, List.prod_append, List.map_cons,
          List.map_nil, List.prod_cons, List.prod_nil, List.prod_cons]
        calc (extractAll a q).1.prod
              * ((List.map (fun pe : Nat × Nat => pe.1 ^ pe.2) vf).prod
                * (a ^ ((extractAll a q).2 + 1) * 1))
            = ((extractAll a q).1.prod * a ^ (extractAll a q).2)
              * (a * (List.map (fun pe : Nat × Nat => pe.1 ^ pe.2) vf).prod) := by
              rw [pow_succ]; ring
          _ = q.prod * (a * (List.map (fun pe : Nat × Nat => pe.1 ^ pe.2) vf).prod) := by
              rw [hq]
          _ = (a * q.prod) * (List.map (fun pe : Nat × Nat => pe.1 ^ pe.2) vf).prod := by
              ring
      · rw [ih]
        simp only [prodPE, List.map_append, List.prod_append, List.map_cons,
          List.map_nil, List.prod_cons, List.prod_nil]
        ring_nf
        simp [pow_one]
        ring
      · rw [ih]
        have hdvd : pollard_rho_repeated a maxIter ifuel ∣ a :=
          (pollard_rho_repeated_spec a maxIter ifuel).1
        simp only [List.prod_cons]
        rw [← mul_assoc, Nat.div_mul_cancel hdvd]

/-- One-step unfolding of `fiLoopF` on a nonempty stack with nonzero fuel. -/
theorem fiLoopF_step (maxIter ifuel f a : Nat) (q : List Nat) (vf : List (Nat × Nat)) :
    fiLoopF maxIter ifuel (f + 1) (a :: q) vf =
      if a = 1 then fiLoopF maxIter ifuel f q vf
      else if mrN a then
        fiLoopF maxIter ifuel f (extractAll a q).1 (vf ++ [(a, (extractAll a q).2 + 1)])
      else if pollard_rho_repeated a maxIter ifuel = 1
          ∨ pollard_rho_repeated a maxIter ifuel = a then
        fiLoopF maxIter ifuel f q (vf ++ [(a, 1)])
      else fiLoopF maxIter ifuel f
        (a / pollard_rho_repeated a maxIter ifuel
          :: pollard_rho_repeated a maxIter ifuel :: q) vf := rfl

/-- One fuel step never matters once the fuel reaches the stack measure:
the loop finishes before the fuel runs out, so `fiLoopF` computes the
source's unbounded while-loop for any sufficient fuel. -/
theorem fiLoopF_succ_eq (maxIter ifuel : Nat) : ∀ f q vf, stackMeasure q ≤ f →
    fiLoopF maxIter ifuel (f + 1) q vf = fiLoopF maxIter ifuel f q vf := by
  intro f
  induction f with
  | zero =>
    intro q vf hm
    cases q with
    | nil => simp [fiLoopF]
    | cons a q =>
      rw [stackMeasure_cons] at hm
      simp only [stackMeasure] at hm
      omega
  | succ f ih =>
    intro q vf hm
    cases q with
    | nil => rfl
    | cons a q =>
      rw [stackMeasure_cons] at hm
      rw [fiLoopF_step maxIter ifuel (f + 1) a q vf,
        fiLoopF_step maxIter ifuel f a q vf]
      split_ifs with h1 h2 h3
      · exact ih q vf (by omega)
      · have ha0 : a ≠ 0 := by
          intro hc
          rw [hc] at h2
          rw [mrN_zero] at h2
          exact Bool.false_ne_true h2
        have ha2 : 2 ≤ a := by omega
        have hme := extractAll_measure a q
        apply ih
        simp only [stackMeasure] at hm ⊢
        omega
      · apply ih
        omega
      · push_neg at h3
        have hspec := pollard_rho_repeated_spec a maxIter ifuel
        have ha0 : a ≠ 0 := by
          intro hc
          rw [hc, prr_zero] at h3
          exact h3.2 rfl
        have ha2 : 2 ≤ a := by omega
        have hd2 : 2 ≤ pollard_rho_repeated a maxIter ifuel := by
          rcases hspec.2 with h | h
          · exact absurd h h3.2
          · exact h
        obtain ⟨Q, hQ⟩ := hspec.1
        have hdpos : 0 < pollard_rho_repeated a maxIter ifuel := by omega
        have hdiv : a / pollard_rho_repeated a maxIter ifuel = Q :=
          Nat.div_eq_of_eq_mul_right hdpos hQ
        have hq2 : 2 ≤ Q := by
          rcases Nat.lt_or_ge Q 2 with hq | hq
          · exfalso
            have h01 : Q = 0 ∨ Q = 1 := by omega
            rcases h01 with h0 | h0
            · rw [h0, Nat.mul_zero] at hQ
              exact ha0 hQ
            · rw [h0, Nat.mul_one] at hQ
              exact h3.2 hQ.symm
          · exact hq
        have hsum : Q + pollard_rho_repeated a maxIter ifuel
            ≤ Q * pollard_rho_repeated a maxIter ifuel := Nat.add_le_mul hq2 hd2
        have hQD : Q + pollard_rho_repeated a maxIter ifuel ≤ a :=
          hsum.trans_eq ((Nat.mul_comm Q _).trans hQ.symm)
        apply ih
        rw [stackMeasure_cons, stackMeasure_cons, hdiv]
        clear hQ hsum
        omega

/-- Any fuel at least the stack measure computes the loop's limit. -/
theorem fiLoopF_stable (maxIter ifuel : Nat) : ∀ k f q vf, stackMeasure q ≤ f →
    fiLoopF maxIter ifuel (f + k) q vf = fiLoopF maxIter ifuel f q vf := by
  intro k
  induction k with
  | zero => intro f q vf _; rfl
  | succ k ih =>
    intro f q vf hm
    have h1 : f + (k + 1) = (f + k) + 1 := by omega
    rw [h1, fiLoopF_succ_eq maxIter ifuel (f + k) q vf (by omega), ih f q vf hm]

/-- CLAIM C2 — Multiplying `prime ^ exponent` over all pairs returned by
`factor_integer(n)` (with the default budgets) reconstructs `n` exactly,
for every `n ≥ 2`; `factor_integer(360)` returns exactly the pairs
`(2,3)`, `(3,2)`, `(5,1)` in some order. -/
theorem factor_integer_roundtrip :
    (∀ n : Nat, 2 ≤ n → prodPE (factor_integer n) = n) ∧
    (factor_integer 360).Perm [(2, 3), (3, 2), (5, 1)] := by
  constructor
  · intro n h2
    unfold factor_integer
    rw [if_neg (by push_neg; omega)]
    rw [fiLoopF_prod]
    simp [prodPE]
  · decide

/-- Witness for the universally quantified part of C2 at `n = 360`. -/
theorem factor_integer_roundtrip_witness :
    2 ≤ 360 ∧ prodPE (factor_integer 360) = 360 :=
  ⟨by omega, factor_integer_roundtrip.1 360 (by omega)⟩

/-- Master invariant of the `factor_integer_slow` trial-division loop: from
state `(n, i)` with `i ≥ 2`, `n ≥ 1`, no divisor of `n` in `[2, i)` and
sufficient fuel, the emitted pairs have prime first components that are
`≥ i` and strictly increasing, positive exponents, and multiply back to `n`. -/
theorem fisLoop_master : ∀ f n i, 2 ≤ i → 1 ≤ n →
    (∀ d, 2 ≤ d → d < i → ¬ d ∣ n) → n + 1 ≤ i + f →
    (∀ pe ∈ fisLoop f n i, i ≤ pe.1 ∧ pe.1.Prime ∧ 1 ≤ pe.2) ∧
    ((fisLoop f n i).map Prod.fst).Pairwise (· < ·) ∧
    prodPE (fisLoop f n i) = n := by
  intro f
  induction f with
  | zero =>
    intro n i hi hn hnod hfuel
    have hn1 : n = 1 := by
      by_contra hc
      have hp := Nat.minFac_dvd n
      have hple : n.minFac ≤ n := Nat.minFac_le (by omega)
      have hp2 : 2 ≤ n.minFac := (Nat.minFac_prime (by omega : n ≠ 1)).two_le
      exact hnod n.minFac hp2 (by omega) hp
    subst hn1
    refine ⟨?_, ?_, ?_⟩
    · intro pe hpe
      simp [fisLoop] at hpe
    · simp [fisLoop]
    · simp [fisLoop, prodPE]
  | succ f ih =>
    intro n i hi hn hnod hfuel
    by_cases hcont : i ≤ n / i
    · by_cases hmod : n % i = 0
      · have hdvd : i ∣ n := Nat.dvd_of_mod_eq_zero hmod
        have hstep : fisLoop (f + 1) n i
            = (i, (extractPow i n n).2) :: fisLoop f (extractPow i n n).1 (i + 1) := by
          simp only [fisLoop]
          rw [if_pos hcont, if_neg (not_not_intro hmod)]
        have hiprime : i.Prime := by
          rw [Nat.prime_def_lt']
          exact ⟨hi, fun m hm2 hmi hdm => hnod m hm2 hmi (hdm.trans hdvd)⟩
        have hr1pos : 1 ≤ (extractPow i n n).1 := extractPow_fst_pos i n n hn
        have hrmul : (extractPow i n n).1 * i ^ (extractPow i n n).2 = n :=
          extractPow_fst_mul_pow i n n
        have hr2pos : 1 ≤ (extractPow i n n).2 :=
          extractPow_snd_pos i n n hi (by omega) hmod (by omega)
        have hndvd : ¬ i ∣ (extractPow i n n).1 :=
          extractPow_not_dvd i n n hi hn le_rfl
        have hr1dvd : (extractPow i n n).1 ∣ n := ⟨i ^ (extractPow i n n).2, hrmul.symm⟩
        have hr1le : (extractPow i n n).1 ≤ n := extractPow_fst_le i n n
        have hnod' : ∀ d, 2 ≤ d → d < i + 1 → ¬ d ∣ (extractPow i n n).1 := by
          intro d hd2 hdi hdr
          rcases Nat.lt_or_ge d i with hlt | hge
          · exact hnod d hd2 hlt (hdr.trans hr1dvd)
          · have hdieq : d = i := by omega
            rw [hdieq] at hdr
            exact hndvd hdr
        have hIH := ih (extractPow i n n).1 (i + 1) (by omega) hr1pos hnod' (by omega)
        rw [hstep]
        refine ⟨?_, ?_, ?_⟩
        · intro pe hpe
          rcases List.mem_cons.mp hpe with h | h
          · rw [h]
            exact ⟨le_rfl, hiprime, hr2pos⟩
          · obtain ⟨h1, h2, h3⟩ := hIH.1 pe h
            exact ⟨by omega, h2, h3⟩
        · rw [List.map_cons, List.pairwise_cons]
          refine ⟨?_, hIH.2.1⟩
          intro b hb
          rcases List.mem_map.mp hb with ⟨pe, hpe, rfl⟩
          obtain ⟨h1, _, _⟩ := hIH.1 pe hpe
          omega
        · simp only [prodPE, List.map_cons, List.prod_cons]
          have hp2 := hIH.2.2
          simp only [prodPE] at hp2
          rw [hp2, Nat.mul_comm]
          exact hrmul
      · have hstep : fisLoop (f + 1) n i = fisLoop f n (i + 1) := by
          simp only [fisLoop]
          rw [if_pos hcont, if_pos hmod]
        have hnod' : ∀ d, 2 ≤ d → d < i + 1 → ¬ d ∣ n := by
          intro d hd2 hdi hdn
          rcases Nat.lt_or_ge d i with hlt | hge
          · exact hnod d hd2 hlt hdn
          · have hdieq : d = i := by omega
            rw [hdieq] at hdn
            obtain ⟨c, hc⟩ := hdn
            rw [hc] at hmod
            exact hmod (Nat.mul_mod_right i c)
        have hIH := ih n (i + 1) (by omega) hn hnod' (by omega)
        rw [hstep]
        refine ⟨?_, hIH.2.1, hIH.2.2⟩
        intro pe hpe
        obtain ⟨h1, h2, h3⟩ := hIH.1 pe hpe
        exact ⟨by omega, h2, h3⟩
    · have hstep : fisLoop (f + 1) n i = if 1 < n then [(n, 1)] else [] := by
        simp only [fisLoop]
        rw [if_neg hcont]
      rw [hstep]
      by_cases hn1 : 1 < n
      · rw [if_pos hn1]
        have hnlt : n < i * i :=
          (Nat.div_lt_iff_lt_mul (show 0 < i by omega)).mp (by omega)
        have hprime : n.Prime := by
          rw [Nat.prime_def_lt']
          refine ⟨by omega, ?_⟩
          intro m hm2 hmn hdm
          rcases Nat.lt_or_ge m i with hlt | hge
          · exact hnod m hm2 hlt hdm
          · obtain ⟨k, hk⟩ := hdm
            have hkdvd : k ∣ n := ⟨m, by rw [hk]; ring⟩
            have hkpos : 0 < k := by
              rcases Nat.eq_zero_or_pos k with h0 | h0
              · rw [h0, Nat.mul_zero] at hk
                omega
              · exact h0
            have hkeq : k = n / m := by
              rw [hk]
              exact (Nat.mul_div_cancel_left k (by omega)).symm
            have hkle : n / m ≤ n / i := Nat.div_le_div_left hge (by omega)
            have hklt : k < i := by omega
            have hk2 : 2 ≤ k := by
              by_contra hc
              push_neg at hc
              have hk1 : k = 1 := by omega
              rw [hk1, Nat.mul_one] at hk
              omega
            exact hnod k hk2 hklt hkdvd
        have hilen : i ≤ n := by
          have hp := Nat.minFac_dvd n
          have hp2 : 2 ≤ n.minFac := (Nat.minFac_prime (by omega : n ≠ 1)).two_le
          have hple : n.minFac ≤ n := Nat.minFac_le (by omega)
          by_contra hc
          push_neg at hc
          exact hnod n.minFac hp2 (by omega) hp
        refine ⟨?_, ?_, ?_⟩
        · intro pe hpe
          rw [List.mem_singleton] at hpe
          rw [hpe]
          exact ⟨hilen, hprime, le_rfl⟩
        · simp
        · simp [prodPE]
      · rw [if_neg hn1]
        have hneq : n = 1 := by omega
        refine ⟨?_, ?_, ?_⟩
        · intro pe hpe
          simp at hpe
        · simp
        · simp [prodPE, hneq]

/-- CLAIM C9 — For every `n ≥ 2`, `factor_integer_slow(n)` returns pairs
whose first components are strictly increasing and prime, whose exponents
are all `≥ 1`, and whose product of `prime ^ exponent` equals `n`. -/
theorem factor_integer_slow_correct (n : Nat) (h2 : 2 ≤ n) :
    (∀ pe ∈ factor_integer_slow n, pe.1.Prime ∧ 1 ≤ pe.2) ∧
    ((factor_integer_slow n).map Prod.fst).Pairwise (· < ·) ∧
    prodPE (factor_integer_slow n) = n := by
  have h := fisLoop_master n n 2 le_rfl (by omega)
    (fun d hd2 hdi => absurd hd2 (by omega)) (by omega)
  exact ⟨fun pe hpe => ⟨(h.1 pe hpe).2.1, (h.1 pe hpe).2.2⟩, h.2.1, h.2.2⟩

/-- Witness for C9 at `n = 360`. -/
theorem factor_integer_slow_correct_witness :
    2 ≤ 360 ∧ prodPE (factor_integer_slow 360) = 360 :=
  ⟨by omega, (factor_integer_slow_correct 360 (by omega)).2.2⟩

/-! ### Lemmas about the kth_roots embedding -/

theorem pow_mod_reduce (m phi g a : Nat) (hm : 2 ≤ m) (hg1 : g ^ phi % m = 1) :
    g ^ a % m = g ^ (a % phi) % m := by
  conv_lhs => rw [← Nat.div_add_mod a phi]
  rw [pow_add, Nat.mul_mod, pow_mul, Nat.pow_mod, hg1, one_pow,
    Nat.mod_eq_of_lt (show (1 : Nat) < m by omega), one_mul,
    Nat.mod_mod_of_dvd _ dvd_rfl]

theorem pow_mod_coprime (m phi g : Nat) (hm : 2 ≤ m) (hphi : 1 ≤ phi)
    (hg1 : g ^ phi % m = 1) : Nat.Coprime g m := by
  have hdm := Nat.div_add_mod (g ^ phi) m
  have hd1 : Nat.gcd g m ∣ g ^ phi :=
    (Nat.gcd_dvd_left g m).trans (dvd_pow_self g (show phi ≠ 0 by omega))
  have hd2 : Nat.gcd g m ∣ m * (g ^ phi / m) :=
    Dvd.dvd.mul_right (Nat.gcd_dvd_right g m) _
  have hd3 : Nat.gcd g m ∣ g ^ phi - m * (g ^ phi / m) := Nat.dvd_sub' hd1 hd2
  have he : g ^ phi - m * (g ^ phi / m) = 1 := by omega
  rw [he] at hd3
  exact Nat.dvd_one.mp hd3

theorem pow_mod_order_dvd (m phi g : Nat) (hm : 2 ≤ m) (hphi : 1 ≤ phi)
    (hg1 : g ^ phi % m = 1) (hmin : ∀ e < phi, 0 < e → g ^ e % m ≠ 1) :
    ∀ e, g ^ e % m = 1 ↔ phi ∣ e := by
  intro e
  constructor
  · intro he
    have hred := pow_mod_reduce m phi g e hm hg1
    rw [he] at hred
    have hlt : e % phi < phi := Nat.mod_lt e (by omega)
    rcases Nat.eq_zero_or_pos (e % phi) with h0 | h0
    · exact Nat.dvd_of_mod_eq_zero h0
    · exact absurd hred.symm (hmin (e % phi) hlt h0)
  · rintro ⟨t, rfl⟩
    rw [pow_mul, Nat.pow_mod, hg1, one_pow,
      Nat.mod_eq_of_lt (show (1 : Nat) < m by omega)]

theorem pow_mod_inj_of_le (m phi g : Nat) (hm : 2 ≤ m) (hphi : 1 ≤ phi)
    (hg1 : g ^ phi % m = 1) (hmin : ∀ e < phi, 0 < e → g ^ e % m ≠ 1)
    (a b : Nat) (hab : a ≤ b) (heq : g ^ a % m = g ^ b % m) : phi ∣ b - a := by
  have hco : Nat.Coprime g m := pow_mod_coprime m phi g hm hphi hg1
  have hsplit : g ^ b = g ^ a * g ^ (b - a) := by
    rw [← pow_add]
    congr 1
    omega
  have hmodeq : g ^ a * g ^ (b - a) ≡ g ^ a * 1 [MOD m] := by
    rw [mul_one, ← hsplit]
    exact heq.symm
  have hcanc : g ^ (b - a) ≡ 1 [MOD m] :=
    Nat.ModEq.cancel_left_of_coprime (hco.pow_left a).symm hmodeq
  have h1 : g ^ (b - a) % m = 1 % m := hcanc
  rw [Nat.mod_eq_of_lt (show (1 : Nat) < m by omega)] at h1
  exact (pow_mod_order_dvd m phi g hm hphi hg1 hmin (b - a)).mp h1

theorem pow_mod_inj_mod (m phi g : Nat) (hm : 2 ≤ m) (hphi : 1 ≤ phi)
    (hg1 : g ^ phi % m = 1) (hmin : ∀ e < phi, 0 < e → g ^ e % m ≠ 1)
    (a b : Nat) (heq : g ^ a % m = g ^ b % m) : a % phi = b % phi := by
  rcases le_total a b with hab | hab
  · obtain ⟨t, ht⟩ := pow_mod_inj_of_le m phi g hm hphi hg1 hmin a b hab heq
    have hb : b = a + phi * t := by omega
    rw [hb, Nat.add_mul_mod_self_left]
  · obtain ⟨t, ht⟩ := pow_mod_inj_of_le m phi g hm hphi hg1 hmin b a hab heq.symm
    have ha : a = b + phi * t := by omega
    rw [ha, Nat.add_mul_mod_self_left]

theorem kth_roots_loop_powers (m g F : Nat) :
    ∀ c E s, kth_roots_loop m (g ^ F % m) c (g ^ E % m) s
      = s ∪ (Finset.range c).image (fun i => g ^ (E + i * F) % m) := by
  intro c
  induction c with
  | zero =>
    intro E s
    simp [kth_roots_loop]
  | succ c ih =>
    intro E s
    show kth_roots_loop m (g ^ F % m) c ((g ^ E % m) * (g ^ F % m) % m)
        (insert (g ^ E % m) s) = _
    have hmul : (g ^ E % m) * (g ^ F % m) % m = g ^ (E + F) % m := by
      rw [← Nat.mul_mod, ← pow_add]
    rw [hmul, ih (E + F) (insert (g ^ E % m) s)]
    ext x
    simp only [Finset.mem_union, Finset.mem_insert, Finset.mem_image, Finset.mem_range]
    constructor
    · rintro ((hx | hx) | ⟨i, hi, hx⟩)
      · right
        refine ⟨0, by omega, ?_⟩
        have he : E + 0 * F = E := by ring
        rw [he]
        exact hx.symm
      · exact Or.inl hx
      · right
        refine ⟨i + 1, by omega, ?_⟩
        have he : E + (i + 1) * F = E + F + i * F := by ring
        rw [he]
        exact hx
    · rintro (hx | ⟨i, hi, hx⟩)
      · exact Or.inl (Or.inr hx)
      · cases i with
        | zero =>
          left
          left
          have he : E + 0 * F = E := by ring
          rw [he] at hx
          exact hx.symm
        | succ i =>
          right
          refine ⟨i, by omega, ?_⟩
          have he : E + (i + 1) * F = E + F + i * F := by ring
          rw [he] at hx
          exact hx

theorem modulo_divide_mod (l2 k2 phi2 : Nat) (hphi2 : 1 ≤ phi2)
    (hco : Nat.gcd k2 phi2 = 1) :
    (k2 * (modulo_divide (l2 : Int) (k2 : Int) (phi2 : Int)).toNat) % phi2
      = l2 % phi2 := by
  have hphiZ : (0 : Int) < (phi2 : Int) := by exact_mod_cast (show 0 < phi2 by omega)
  obtain ⟨hgcd, hbez⟩ := gcd_ex_spec (k2 : Int) (phi2 : Int)
    (Int.natCast_nonneg _) (Int.natCast_nonneg _)
  have hg1 : Int.gcd (k2 : Int) (phi2 : Int) = 1 := by
    have hgn : Int.gcd (k2 : Int) (phi2 : Int) = Nat.gcd k2 phi2 := by
      simp [Int.gcd, Int.natAbs_ofNat]
    rw [hgn, hco]
  rw [hg1, Nat.cast_one] at hbez
  set x := (gcd_ex (k2 : Int) (phi2 : Int)).2.1 with hxdef
  set y := (gcd_ex (k2 : Int) (phi2 : Int)).2.2 with hydef
  have hmdiv : modulo_divide (l2 : Int) (k2 : Int) (phi2 : Int)
      = ((l2 : Int) * (x % (phi2 : Int))) % (phi2 : Int) := by
    simp only [modulo_divide, modulo_multiply, modulo_inverse, modulo_normalize]
  have hnn : 0 ≤ modulo_divide (l2 : Int) (k2 : Int) (phi2 : Int) := by
    rw [hmdiv]
    exact Int.emod_nonneg _ (by omega)
  have htn : ((modulo_divide (l2 : Int) (k2 : Int) (phi2 : Int)).toNat : Int)
      = modulo_divide (l2 : Int) (k2 : Int) (phi2 : Int) := Int.toNat_of_nonneg hnn
  have hstep1 : modulo_divide (l2 : Int) (k2 : Int) (phi2 : Int)
      ≡ (l2 : Int) * x [ZMOD (phi2 : Int)] := by
    rw [hmdiv]
    calc ((l2 : Int) * (x % (phi2 : Int))) % (phi2 : Int)
        ≡ (l2 : Int) * (x % (phi2 : Int)) [ZMOD (phi2 : Int)] :=
          Int.emod_emod_of_dvd _ dvd_rfl
      _ ≡ (l2 : Int) * x [ZMOD (phi2 : Int)] :=
          Int.ModEq.mul_left _ (Int.emod_emod_of_dvd x dvd_rfl)
  have hk2x : (k2 : Int) * x ≡ 1 [ZMOD (phi2 : Int)] := by
    have he : (k2 : Int) * x = 1 + (phi2 : Int) * (-y) := by
      linear_combination hbez
    show ((k2 : Int) * x) % (phi2 : Int) = 1 % (phi2 : Int)
    rw [he, Int.add_mul_emod_self_left]
  have hfin : (k2 : Int) * modulo_divide (l2 : Int) (k2 : Int) (phi2 : Int)
      ≡ (l2 : Int) [ZMOD (phi2 : Int)] := by
    calc (k2 : Int) * modulo_divide (l2 : Int) (k2 : Int) (phi2 : Int)
        ≡ (k2 : Int) * ((l2 : Int) * x) [ZMOD (phi2 : Int)] := hstep1.mul_left _
      _ = (l2 : Int) * ((k2 : Int) * x) := by ring
      _ ≡ (l2 : Int) * 1 [ZMOD (phi2 : Int)] := hk2x.mul_left _
      _ = (l2 : Int) := by ring
  have hcast : (((k2 * (modulo_divide (l2 : Int) (k2 : Int) (phi2 : Int)).toNat) % phi2
      : Nat) : Int) = ((l2 % phi2 : Nat) : Int) := by
    rw [Int.ofNat_emod, Int.ofNat_emod]
    push_cast
    rw [htn]
    exact hfin
  exact_mod_cast hcast

theorem g_pow_image_card (m phi g d phi2 h : Nat) (hm : 2 ≤ m) (hphi : 1 ≤ phi)
    (hg1 : g ^ phi % m = 1) (hmin : ∀ e < phi, 0 < e → g ^ e % m ≠ 1)
    (hphi2 : 1 ≤ phi2) (hphieq : d * phi2 = phi) :
    ((Finset.range d).image (fun i => g ^ (h + i * phi2) % m)).card = d := by
  have key : ∀ i j : Nat, i < d → j < d → i ≤ j →
      g ^ (h + i * phi2) % m = g ^ (h + j * phi2) % m → i = j := by
    intro i j hi hj hij heq
    have hmodeq : (h + i * phi2) % phi = (h + j * phi2) % phi :=
      pow_mod_inj_mod m phi g hm hphi hg1 hmin _ _ heq
    have hle : h + i * phi2 ≤ h + j * phi2 :=
      Nat.add_le_add_left (Nat.mul_le_mul_right phi2 hij) h
    have hdvd2 : phi ∣ (h + j * phi2) - (h + i * phi2) :=
      (Nat.modEq_iff_dvd' hle).mp hmodeq
    have hsub : (h + j * phi2) - (h + i * phi2) = (j - i) * phi2 := by
      rw [Nat.sub_mul]
      omega
    rw [hsub] at hdvd2
    obtain ⟨t, ht⟩ := hdvd2
    have ht2 : (j - i) * phi2 = (d * t) * phi2 := by
      rw [ht, ← hphieq]
      ring
    have hji : j - i = d * t := Nat.eq_of_mul_eq_mul_right (by omega) ht2
    cases t with
    | zero =>
      rw [Nat.mul_zero] at hji
      omega
    | succ t =>
      have hge : d ≤ d * (t + 1) := Nat.le_mul_of_pos_right d (by omega)
      omega
  have hinj : Set.InjOn (fun i => g ^ (h + i * phi2) % m) ↑(Finset.range d) := by
    intro i hi j hj heq
    simp only [Finset.coe_range, Set.mem_Iio] at hi hj
    rcases le_total i j with hij | hij
    · exact key i j hi hj hij heq
    · exact (key j i hj hi hij heq.symm).symm
  rw [Finset.card_image_of_injOn hinj, Finset.card_range]

/-- CLAIM C8 — For a modulus `m` admitting a primitive root (`2`, `4`,
`p^k`, `2p^k`), `phi = euler_phi(m)`, a primitive root `g` — encoded here
by `g` having order exactly `phi` modulo `m` — and `l` with
`g^l ≡ n (mod m)`: `kth_roots(m, k, phi, g, l)` returns the empty set iff
`l mod gcd(k, phi) ≠ 0` (no solution exists); otherwise it returns exactly
`d = gcd(k, phi)` distinct values, each `x` of which satisfies
`x^k ≡ n (mod m)`. -/
theorem kth_roots_correct (m k phi g l n : Nat)
    (hm : 2 ≤ m) (hphi : 1 ≤ phi)
    (hg1 : g ^ phi % m = 1)
    (hmin : ∀ e < phi, 0 < e → g ^ e % m ≠ 1)
    (hn : g ^ l % m = n % m) :
    (kth_roots m k phi g l = ∅ ↔ l % Nat.gcd k phi ≠ 0) ∧
    (l % Nat.gcd k phi = 0 →
      (kth_roots m k phi g l).card = Nat.gcd k phi ∧
      ∀ x ∈ kth_roots m k phi g l, x ^ k % m = n % m) := by
  have hd0 : Nat.gcd k phi ≠ 0 := by
    intro hc
    have := Nat.eq_zero_of_gcd_eq_zero_right hc
    omega
  by_cases hl : l % Nat.gcd k phi = 0
  case neg =>
    have hempty : kth_roots m k phi g l = ∅ := by
      unfold kth_roots
      rw [if_pos (Or.inr hl)]
    exact ⟨⟨fun _ => hl, fun _ => hempty⟩, fun hc => absurd hc hl⟩
  case pos =>
    have hdphi : Nat.gcd k phi ∣ phi := Nat.gcd_dvd_right k phi
    have hdk : Nat.gcd k phi ∣ k := Nat.gcd_dvd_left k phi
    have hdle : Nat.gcd k phi ≤ phi := Nat.le_of_dvd (by omega) hdphi
    have hphi2 : 1 ≤ phi / Nat.gcd k phi :=
      (Nat.one_le_div_iff (by omega)).mpr hdle
    have hphieq : Nat.gcd k phi * (phi / Nat.gcd k phi) = phi :=
      Nat.mul_div_cancel' hdphi
    have hkeq : Nat.gcd k phi * (k / Nat.gcd k phi) = k :=
      Nat.mul_div_cancel' hdk
    have hleq : Nat.gcd k phi * (l / Nat.gcd k phi) = l :=
      Nat.mul_div_cancel' (Nat.dvd_of_mod_eq_zero hl)
    have hco : Nat.gcd (k / Nat.gcd k phi) (phi / Nat.gcd k phi) = 1 :=
      Nat.coprime_div_gcd_div_gcd (by omega)
    have hresult : kth_roots m k phi g l
        = (Finset.range (Nat.gcd k phi)).image
            (fun i => g ^ ((modulo_divide ((l / Nat.gcd k phi : Nat) : Int)
              ((k / Nat.gcd k phi : Nat) : Int)
              ((phi / Nat.gcd k phi : Nat) : Int)).toNat
              + i * (phi / Nat.gcd k phi)) % m) := by
      unfold kth_roots
      rw [if_neg (by push_neg; exact ⟨hd0, hl⟩)]
      simp only [powmod_eq']
      rw [kth_roots_loop_powers m g (phi / Nat.gcd k phi), Finset.empty_union]
    set d := Nat.gcd k phi with hddef
    set phi2 := phi / d with hphi2def
    set k2 := k / d with hk2def
    set l2 := l / d with hl2def
    set ht := (modulo_divide (l2 : Int) (k2 : Int) (phi2 : Int)).toNat with htdef
    have hmd : (k2 * ht) % phi2 = l2 % phi2 := modulo_divide_mod l2 k2 phi2 hphi2 hco
    have hkey : ∀ i : Nat, ((ht + i * phi2) * k) % phi = l % phi := by
      intro i
      have hme2 : d * (k2 * ht) ≡ d * l2 [MOD d * phi2] := Nat.ModEq.mul_left' _ hmd
      rw [hphieq, hleq] at hme2
      have hexp : (ht + i * phi2) * k = d * (k2 * ht) + (i * k2) * phi := by
        rw [← hkeq, ← hphieq]
        ring
      rw [hexp, Nat.add_mul_mod_self_right]
      exact hme2
    refine ⟨⟨?_, ?_⟩, fun _ => ⟨?_, ?_⟩⟩
    · intro he
      have h0 : (g ^ (ht + 0 * phi2) % m) ∈ kth_roots m k phi g l := by
        rw [hresult]
        exact Finset.mem_image_of_mem _ (Finset.mem_range.mpr (by omega))
      rw [he] at h0
      simp at h0
    · intro hc
      exact absurd hl hc
    · rw [hresult]
      exact g_pow_image_card m phi g d phi2 ht hm hphi hg1 hmin hphi2 hphieq
    · intro x hx
      rw [hresult] at hx
      obtain ⟨i, hi, hxeq⟩ := Finset.mem_image.mp hx
      rw [← hxeq]
      calc (g ^ (ht + i * phi2) % m) ^ k % m
          = (g ^ (ht + i * phi2)) ^ k % m := by rw [← Nat.pow_mod]
        _ = g ^ ((ht + i * phi2) * k) % m := by rw [← pow_mul]
        _ = g ^ (((ht + i * phi2) * k) % phi) % m := pow_mod_reduce m phi g _ hm hg1
        _ = g ^ (l % phi) % m := by rw [hkey i]
        _ = g ^ l % m := (pow_mod_reduce m phi g l hm hg1).symm
        _ = n % m := hn

/-- Witness for C8 with `m = 7`, `k = 2`, `phi = 6`, `g = 3` (a primitive
root mod 7), `l = 2`, `n = 2` (`3^2 ≡ 2 (mod 7)`). -/
theorem kth_roots_correct_witness :
    (2 ≤ 7 ∧ 1 ≤ 6 ∧ 3 ^ 6 % 7 = 1 ∧ (∀ e < 6, 0 < e → 3 ^ e % 7 ≠ 1) ∧
      3 ^ 2 % 7 = 2 % 7) ∧
    ((kth_roots 7 2 6 3 2 = ∅ ↔ 2 % Nat.gcd 2 6 ≠ 0) ∧
      (2 % Nat.gcd 2 6 = 0 → (kth_roots 7 2 6 3 2).card = Nat.gcd 2 6 ∧
        ∀ x ∈ kth_roots 7 2 6 3 2, x ^ 2 % 7 = 2 % 7)) :=
  ⟨⟨by omega, by omega, by decide, by decide, by decide⟩,
    kth_roots_correct 7 2 6 3 2 2 (by omega) (by omega) (by decide) (by decide)
      (by decide)⟩

/-! ### Lemmas about the Cipolla embedding -/

theorem qmul_cast (p dN : Nat) (x y : Nat × Nat) :
    QAdj.ofPair p (dN : ZMod p) (qmul p dN x y)
      = QAdj.ofPair p (dN : ZMod p) x * QAdj.ofPair p (dN : ZMod p) y := by
  refine QAdj.ext ?_ ?_
  · show (((x.1 * y.1 + x.2 * y.2 * dN) % p : Nat) : ZMod p)
      = (x.1 : ZMod p) * (y.1 : ZMod p) + (x.2 : ZMod p) * (y.2 : ZMod p) * (dN : ZMod p)
    rw [ZMod.natCast_mod]
    push_cast
    ring
  · show (((x.1 * y.2 + x.2 * y.1) % p : Nat) : ZMod p)
      = (x.1 : ZMod p) * (y.2 : ZMod p) + (x.2 : ZMod p) * (y.1 : ZMod p)
    rw [ZMod.natCast_mod]
    push_cast
    ring

theorem qpowAux_cast (p dN : Nat) (b : Nat × Nat) : ∀ f e, e ≤ f →
    QAdj.ofPair p (dN : ZMod p) (qpowAux p dN b f e)
      = QAdj.ofPair p (dN : ZMod p) b ^ e := by
  intro f
  induction f with
  | zero =>
    intro e he
    have he0 : e = 0 := by omega
    subst he0
    rw [pow_zero]
    refine QAdj.ext ?_ ?_
    · show (((1 % p : Nat)) : ZMod p) = 1
      rw [ZMod.natCast_mod, Nat.cast_one]
    · show ((0 : Nat) : ZMod p) = 0
      exact Nat.cast_zero
  | succ f ih =>
    intro e he
    by_cases he0 : e = 0
    · subst he0
      rw [pow_zero]
      refine QAdj.ext ?_ ?_
      · show (((1 % p : Nat)) : ZMod p) = 1
        rw [ZMod.natCast_mod, Nat.cast_one]
      · show ((0 : Nat) : ZMod p) = 0
        exact Nat.cast_zero
    · have hstep : qpowAux p dN b (f + 1) e
          = if e % 2 = 1 then
              qmul p dN (qmul p dN (qpowAux p dN b f (e / 2)) (qpowAux p dN b f (e / 2))) b
            else qmul p dN (qpowAux p dN b f (e / 2)) (qpowAux p dN b f (e / 2)) := by
        simp only [qpowAux]
        rw [if_neg he0]
      have hef : e / 2 ≤ f := by omega
      have hih := ih (e / 2) hef
      have hsq : QAdj.ofPair p (dN : ZMod p)
            (qmul p dN (qpowAux p dN b f (e / 2)) (qpowAux p dN b f (e / 2)))
          = QAdj.ofPair p (dN : ZMod p) b ^ (e / 2 * 2) := by
        rw [qmul_cast, hih, ← pow_add]
        congr 1
        omega
      rw [hstep]
      by_cases hodd : e % 2 = 1
      · rw [if_pos hodd, qmul_cast, hsq, ← pow_succ]
        congr 1
        omega
      · rw [if_neg hodd, hsq]
        congr 1
        omega

theorem qpow_cast (p dN : Nat) (b : Nat × Nat) (e : Nat) :
    QAdj.ofPair p (dN : ZMod p) (qpow p dN b e)
      = QAdj.ofPair p (dN : ZMod p) b ^ e := qpowAux_cast p dN b e e le_rfl

theorem qpow_fst_lt (p dN : Nat) (b : Nat × Nat) (e : Nat) (hp : 0 < p) :
    (qpow p dN b e).1 < p := by
  unfold qpow
  cases e with
  | zero => exact Nat.mod_lt 1 hp
  | succ e =>
    show (qpowAux p dN b (e + 1) (e + 1)).1 < p
    simp only [qpowAux]
    rw [if_neg (by omega)]
    split_ifs <;> exact Nat.mod_lt _ hp

theorem qadj_scalar_pow (p : Nat) (d : ZMod p) (c : ZMod p) :
    ∀ n : Nat, (⟨c, 0⟩ : QAdj p d) ^ n = ⟨c ^ n, 0⟩ := by
  intro n
  induction n with
  | zero =>
    rw [pow_zero, pow_zero]
    rfl
  | succ n ih =>
    rw [pow_succ, pow_succ, ih]
    refine QAdj.ext ?_ ?_
    · show c ^ n * c + 0 * 0 * d = c ^ n * c
      ring
    · show c ^ n * 0 + 0 * c = 0
      ring

theorem qadj_pow_a_of_zero (p : Nat) (d : ZMod p) (hd : d = 0) (α : ZMod p) :
    ∀ m : Nat, (((⟨α, 1⟩ : QAdj p d)) ^ m).a = α ^ m := by
  intro m
  induction m with
  | zero =>
    rw [pow_zero, pow_zero]
    rfl
  | succ m ih =>
    rw [pow_succ, pow_succ]
    have hcomp : ((⟨α, 1⟩ : QAdj p d) ^ m * ⟨α, 1⟩).a
        = ((⟨α, 1⟩ : QAdj p d) ^ m).a * α + ((⟨α, 1⟩ : QAdj p d) ^ m).b * 1 * d := rfl
    rw [hcomp, ih]
    linear_combination ((⟨α, 1⟩ : QAdj p d) ^ m).b * hd

theorem qadj_pow_card_add_one (p : Nat) [Fact p.Prime] (hodd : p % 2 = 1)
    (d : ZMod p) (hd : d ^ ((p - 1) / 2) = -1) (α : ZMod p) :
    ((⟨α, 1⟩ : QAdj p d)) ^ (p + 1) = ⟨α ^ 2 - d, 0⟩ := by
  have hp := (Fact.out : p.Prime)
  have hp3 : 3 ≤ p := by
    have h2 := hp.two_le
    rcases Nat.lt_or_ge p 3 with h | h
    · interval_cases p
      omega
    · exact h
  haveI : ExpChar (QAdj p d) p := ExpChar.prime hp
  have hx : (⟨α, 1⟩ : QAdj p d) = ⟨α, 0⟩ + ⟨0, 1⟩ := by
    refine QAdj.ext ?_ ?_
    · show α = α + 0
      ring
    · show (1 : ZMod p) = 0 + 1
      ring
  have hfrob : ((⟨α, 0⟩ : QAdj p d) + ⟨0, 1⟩) ^ p
      = (⟨α, 0⟩ : QAdj p d) ^ p + (⟨0, 1⟩ : QAdj p d) ^ p :=
    add_pow_char _ _ _
  have hscal : (⟨α, 0⟩ : QAdj p d) ^ p = ⟨α, 0⟩ := by
    rw [qadj_scalar_pow, ZMod.pow_card]
  have homega2 : (⟨0, 1⟩ : QAdj p d) ^ 2 = ⟨d, 0⟩ := by
    rw [pow_two]
    refine QAdj.ext ?_ ?_
    · show 0 * 0 + 1 * 1 * d = d
      ring
    · show 0 * 1 + 1 * 0 = 0
      ring
  have homegap : (⟨0, 1⟩ : QAdj p d) ^ p = ⟨0, -1⟩ := by
    have hsplit : (⟨0, 1⟩ : QAdj p d) ^ p
        = ((⟨0, 1⟩ : QAdj p d) ^ 2) ^ ((p - 1) / 2) * ⟨0, 1⟩ := by
      rw [← pow_mul, ← pow_succ]
      congr 1
      omega
    rw [hsplit, homega2, qadj_scalar_pow, hd]
    refine QAdj.ext ?_ ?_
    · show (-1 : ZMod p) * 0 + 0 * 1 * d = 0
      ring
    · show (-1 : ZMod p) * 1 + 0 * 0 = -1
      ring
  have hxp : (⟨α, 1⟩ : QAdj p d) ^ p = ⟨α, -1⟩ := by
    rw [hx, hfrob, hscal, homegap]
    refine QAdj.ext ?_ ?_
    · show α + 0 = α
      ring
    · show (0 : ZMod p) + -1 = -1
      ring
  rw [pow_succ, hxp]
  refine QAdj.ext ?_ ?_
  · show α * α + (-1) * 1 * d = α ^ 2 - d
    ring
  · show α * 1 + (-1) * α = 0
    ring

theorem cipollaStep_cast (p y a : Nat) (hy : y ≤ p) :
    ((cipollaStep p y a : Nat) : ZMod p) = (a : ZMod p) ^ 2 - (y : ZMod p) := by
  unfold cipollaStep
  rw [ZMod.natCast_mod]
  push_cast [Nat.cast_sub hy]
  rw [ZMod.natCast_self]
  ring

theorem cipollaStep_zero (p y a : Nat) (hp : 0 < p) (hy : y ≤ p)
    (h : ((a : ZMod p)) ^ 2 = (y : ZMod p)) : cipollaStep p y a = 0 := by
  have hcast : ((cipollaStep p y a : Nat) : ZMod p) = 0 := by
    rw [cipollaStep_cast p y a hy, h]
    ring
  have hdvd : p ∣ cipollaStep p y a := (CharP.cast_eq_zero_iff (ZMod p) p _).mp hcast
  have hlt : cipollaStep p y a < p := by
    unfold cipollaStep
    exact Nat.mod_lt _ hp
  exact Nat.eq_zero_of_dvd_of_lt hdvd hlt

theorem cipollaSearch_spec (p y : Nat) : ∀ f a,
    (∃ j, a < j ∧ j ≤ a + f ∧ powmod (cipollaStep p y j) ((p - 1) / 2) p ≠ 1) →
    ∃ a0, a < a0 ∧ a0 ≤ a + f ∧
      cipollaSearch p y f a = (a0, cipollaStep p y a0) ∧
      powmod (cipollaStep p y a0) ((p - 1) / 2) p ≠ 1 := by
  intro f
  induction f with
  | zero =>
    intro a h
    obtain ⟨j, hj1, hj2, _⟩ := h
    exact absurd hj1 (by omega)
  | succ f ih =>
    intro a h
    obtain ⟨j, hj1, hj2, hj3⟩ := h
    by_cases htest : powmod (cipollaStep p y (a + 1)) ((p - 1) / 2) p = 1
    · have hstep : cipollaSearch p y (f + 1) a = cipollaSearch p y f (a + 1) := by
        simp only [cipollaSearch]
        rw [if_pos htest]
      have hjne : j ≠ a + 1 := by
        intro hc
        rw [hc] at hj3
        exact hj3 htest
      obtain ⟨a0, h1, h2, h3, h4⟩ := ih (a + 1) ⟨j, by omega, by omega, hj3⟩
      exact ⟨a0, by omega, by omega, by rw [hstep]; exact h3, h4⟩
    · have hstep : cipollaSearch p y (f + 1) a = (a + 1, cipollaStep p y (a + 1)) := by
        simp only [cipollaSearch]
        rw [if_neg htest]
      exact ⟨a + 1, by omega, by omega, hstep, htest⟩

/-- CLAIM C5 — For every odd prime `p` and every `y` in `[0, p)` that is a
quadratic residue modulo `p` (witnessed by `s` with `s² ≡ y (mod p)`),
`sqrt_cipolla(y, p)` returns `r` with `r * r ≡ y (mod p)` and
`0 ≤ r < p`; in particular `sqrt_cipolla(2, 7)` returns `3` or `4`. -/
theorem sqrt_cipolla_correct :
    (∀ p y s : Nat, p.Prime → p % 2 = 1 → y < p → s * s % p = y →
      sqrt_cipolla y p * sqrt_cipolla y p % p = y ∧ sqrt_cipolla y p < p) ∧
    (sqrt_cipolla 2 7 = 3 ∨ sqrt_cipolla 2 7 = 4) := by
  constructor
  · intro p y s hp hodd hy hs
    haveI : Fact p.Prime := ⟨hp⟩
    have hp2 : 2 ≤ p := hp.two_le
    have hp3 : 3 ≤ p := by
      rcases Nat.lt_or_ge p 3 with h | h
      · interval_cases p
        omega
      · exact h
    have hyc : (s : ZMod p) * (s : ZMod p) = (y : ZMod p) := by
      have h := congrArg (fun t : Nat => (t : ZMod p)) hs
      simp only at h
      rw [ZMod.natCast_mod] at h
      push_cast at h
      exact h
    have hgood : ∃ j, 0 < j ∧ j ≤ 0 + p ∧
        powmod (cipollaStep p y j) ((p - 1) / 2) p ≠ 1 := by
      by_cases hsz : s % p = 0
      · have hy0 : y = 0 := by
          have hsp : p ∣ s := Nat.dvd_of_mod_eq_zero hsz
          obtain ⟨c, hc⟩ := hsp
          rw [← hs, hc]
          have hmul : p * c * (p * c) = p * (c * (p * c)) := by ring
          rw [hmul, Nat.mul_mod_right]
        refine ⟨p, by omega, by omega, ?_⟩
        have hzero : cipollaStep p y p = 0 := by
          refine cipollaStep_zero p y p (by omega) (by omega) ?_
          rw [ZMod.natCast_self, hy0, Nat.cast_zero]
          exact zero_pow (by omega : (2 : Nat) ≠ 0)
        rw [hzero, powmod_eq', zero_pow (by omega : (p - 1) / 2 ≠ 0), Nat.zero_mod]
        omega
      · have hsmlt : s % p < p := Nat.mod_lt s (by omega)
        have hsnz : 0 < s % p := by omega
        refine ⟨p - s % p, by omega, by omega, ?_⟩
        have hzero : cipollaStep p y (p - s % p) = 0 := by
          refine cipollaStep_zero p y (p - s % p) (by omega) (by omega) ?_
          rw [Nat.cast_sub (by omega : s % p ≤ p), ZMod.natCast_self, ZMod.natCast_mod]
          rw [pow_two]
          linear_combination hyc
        rw [hzero, powmod_eq', zero_pow (by omega : (p - 1) / 2 ≠ 0), Nat.zero_mod]
        omega
    obtain ⟨a0, ha01, ha02, hsearch, htest⟩ := cipollaSearch_spec p y p 0 hgood
    have hr : sqrt_cipolla y p
        = (qpow p (cipollaStep p y a0) (a0 % p, 1 % p) ((p + 1) / 2)).1 := by
      unfold sqrt_cipolla
      rw [hsearch]
    have hrlt : sqrt_cipolla y p < p := by
      rw [hr]
      exact qpow_fst_lt p _ _ _ (by omega)
    have hbase : QAdj.ofPair p ((cipollaStep p y a0 : Nat) : ZMod p) (a0 % p, 1 % p)
        = ⟨(a0 : ZMod p), 1⟩ := by
      refine QAdj.ext ?_ ?_
      · show ((a0 % p : Nat) : ZMod p) = (a0 : ZMod p)
        exact ZMod.natCast_mod a0 p
      · show ((1 % p : Nat) : ZMod p) = 1
        rw [ZMod.natCast_mod, Nat.cast_one]
    have hz : QAdj.ofPair p ((cipollaStep p y a0 : Nat) : ZMod p)
          (qpow p (cipollaStep p y a0) (a0 % p, 1 % p) ((p + 1) / 2))
        = (⟨(a0 : ZMod p), 1⟩
            : QAdj p ((cipollaStep p y a0 : Nat) : ZMod p)) ^ ((p + 1) / 2) := by
      rw [qpow_cast, hbase]
    have hra : ((sqrt_cipolla y p : Nat) : ZMod p)
        = ((⟨(a0 : ZMod p), 1⟩
            : QAdj p ((cipollaStep p y a0 : Nat) : ZMod p)) ^ ((p + 1) / 2)).a := by
      rw [hr]
      exact congrArg QAdj.a hz
    have hsq : ((sqrt_cipolla y p : Nat) : ZMod p) * ((sqrt_cipolla y p : Nat) : ZMod p)
        = (y : ZMod p) := by
      by_cases hD0 : cipollaStep p y a0 = 0
      · have hα2 : (a0 : ZMod p) ^ 2 = (y : ZMod p) := by
          have hc := cipollaStep_cast p y a0 (by omega)
          rw [hD0, Nat.cast_zero] at hc
          linear_combination -hc
        have hZa : ((sqrt_cipolla y p : Nat) : ZMod p) = (a0 : ZMod p) ^ ((p + 1) / 2) := by
          rw [hra]
          exact qadj_pow_a_of_zero p _ (by rw [hD0]; exact Nat.cast_zero) _ _
        rw [hZa, ← pow_add]
        have hexp : (p + 1) / 2 + (p + 1) / 2 = p + 1 := by omega
        rw [hexp]
        by_cases hα : (a0 : ZMod p) = 0
        · rw [hα, zero_pow (by omega : p + 1 ≠ 0)]
          rw [hα, zero_pow (by omega : (2 : Nat) ≠ 0)] at hα2
          exact hα2
        · have hfer : (a0 : ZMod p) ^ (p - 1) = 1 := ZMod.pow_card_sub_one_eq_one hα
          have hsplit : (a0 : ZMod p) ^ (p + 1)
              = (a0 : ZMod p) ^ 2 * (a0 : ZMod p) ^ (p - 1) := by
            rw [← pow_add]
            congr 1
            omega
          rw [hsplit, hfer, mul_one]
          exact hα2
      · have hDne : ((cipollaStep p y a0 : Nat) : ZMod p) ≠ 0 := by
          intro hc
          have hdvd := (CharP.cast_eq_zero_iff (ZMod p) p _).mp hc
          have hlt : cipollaStep p y a0 < p := by
            unfold cipollaStep
            exact Nat.mod_lt _ (by omega)
          exact hD0 (Nat.eq_zero_of_dvd_of_lt hdvd hlt)
        have heuler : ((cipollaStep p y a0 : Nat) : ZMod p) ^ ((p - 1) / 2) ≠ 1 := by
          intro hc
          apply htest
          have hplt : powmod (cipollaStep p y a0) ((p - 1) / 2) p < p :=
            powmod_lt _ _ (by omega)
          have h1lt : (1 : Nat) < p := by omega
          apply zmod_cast_inj hplt h1lt
          rw [powmod_cast, hc, Nat.cast_one]
        have hsquare : (((cipollaStep p y a0 : Nat) : ZMod p) ^ ((p - 1) / 2)) ^ 2 = 1 := by
          rw [← pow_mul]
          have hexp : (p - 1) / 2 * 2 = p - 1 := by omega
          rw [hexp]
          exact ZMod.pow_card_sub_one_eq_one hDne
        have hneg : ((cipollaStep p y a0 : Nat) : ZMod p) ^ ((p - 1) / 2) = -1 := by
          rw [pow_two] at hsquare
          rcases mul_self_eq_one_iff.mp hsquare with h | h
          · exact absurd h heuler
          · exact h
        have hpow := qadj_pow_card_add_one p hodd
          ((cipollaStep p y a0 : Nat) : ZMod p) hneg (a0 : ZMod p)
        have hz2 : ((⟨(a0 : ZMod p), 1⟩
              : QAdj p ((cipollaStep p y a0 : Nat) : ZMod p)) ^ ((p + 1) / 2)) ^ 2
            = ⟨(a0 : ZMod p) ^ 2 - ((cipollaStep p y a0 : Nat) : ZMod p), 0⟩ := by
          rw [← pow_mul]
          have hexp : (p + 1) / 2 * 2 = p + 1 := by omega
          rw [hexp, hpow]
        have hza : (((⟨(a0 : ZMod p), 1⟩
              : QAdj p ((cipollaStep p y a0 : Nat) : ZMod p)) ^ ((p + 1) / 2)).a
              * ((⟨(a0 : ZMod p), 1⟩
              : QAdj p ((cipollaStep p y a0 : Nat) : ZMod p)) ^ ((p + 1) / 2)).a
            + ((⟨(a0 : ZMod p), 1⟩
              : QAdj p ((cipollaStep p y a0 : Nat) : ZMod p)) ^ ((p + 1) / 2)).b
              * ((⟨(a0 : ZMod p), 1⟩
              : QAdj p ((cipollaStep p y a0 : Nat) : ZMod p)) ^ ((p + 1) / 2)).b
              * ((cipollaStep p y a0 : Nat) : ZMod p))
            = (a0 : ZMod p) ^ 2 - ((cipollaStep p y a0 : Nat) : ZMod p) := by
          have h := congrArg QAdj.a hz2
          rw [pow_two] at h
          exact h
        have hzb : (((⟨(a0 : ZMod p), 1⟩
              : QAdj p ((cipollaStep p y a0 : Nat) : ZMod p)) ^ ((p + 1) / 2)).a
              * ((⟨(a0 : ZMod p), 1⟩
              : QAdj p ((cipollaStep p y a0 : Nat) : ZMod p)) ^ ((p + 1) / 2)).b
            + ((⟨(a0 : ZMod p), 1⟩
              : QAdj p ((cipollaStep p y a0 : Nat) : ZMod p)) ^ ((p + 1) / 2)).b
              * ((⟨(a0 : ZMod p), 1⟩
              : QAdj p ((cipollaStep p y a0 : Nat) : ZMod p)) ^ ((p + 1) / 2)).a)
            = 0 := by
          have h := congrArg QAdj.b hz2
          rw [pow_two] at h
          exact h
        have hDα := cipollaStep_cast p y a0 (by omega)
        have hzb0 : ((⟨(a0 : ZMod p), 1⟩
            : QAdj p ((cipollaStep p y a0 : Nat) : ZMod p)) ^ ((p + 1) / 2)).b = 0 := by
          by_contra hb
          have h2 : (2 : ZMod p) * (((⟨(a0 : ZMod p), 1⟩
                : QAdj p ((cipollaStep p y a0 : Nat) : ZMod p)) ^ ((p + 1) / 2)).a
              * ((⟨(a0 : ZMod p), 1⟩
                : QAdj p ((cipollaStep p y a0 : Nat) : ZMod p)) ^ ((p + 1) / 2)).b) = 0 := by
            linear_combination hzb
          have h2ne : (2 : ZMod p) ≠ 0 := by
            intro hc
            have hc2 : ((2 : Nat) : ZMod p) = 0 := by exact_mod_cast hc
            have hdvd := (CharP.cast_eq_zero_iff (ZMod p) p 2).mp hc2
            have := Nat.le_of_dvd (by omega) hdvd
            omega
          have hza0 : ((⟨(a0 : ZMod p), 1⟩
              : QAdj p ((cipollaStep p y a0 : Nat) : ZMod p)) ^ ((p + 1) / 2)).a = 0 := by
            rcases mul_eq_zero.mp h2 with h | h
            · exact absurd h h2ne
            · rcases mul_eq_zero.mp h with h | h
              · exact h
              · exact absurd h hb
          have hyy : ((⟨(a0 : ZMod p), 1⟩
                : QAdj p ((cipollaStep p y a0 : Nat) : ZMod p)) ^ ((p + 1) / 2)).b
              * ((⟨(a0 : ZMod p), 1⟩
                : QAdj p ((cipollaStep p y a0 : Nat) : ZMod p)) ^ ((p + 1) / 2)).b
              * ((cipollaStep p y a0 : Nat) : ZMod p) = (y : ZMod p) := by
            rw [hza0] at hza
            linear_combination hza - hDα
          by_cases hs0 : (s : ZMod p) = 0
          · have hy0 : (y : ZMod p) = 0 := by
              rw [← hyc, hs0]
              ring
            rw [hy0] at hyy
            rcases mul_eq_zero.mp hyy with h | h
            · rcases mul_eq_zero.mp h with h' | h'
              · exact hb h'
              · exact hb h'
            · rw [h] at hneg
              rw [zero_pow (by omega : (p - 1) / 2 ≠ 0)] at hneg
              have hone : (1 : ZMod p) = 0 := by linear_combination hneg
              exact one_ne_zero hone
          · have hinv : ((⟨(a0 : ZMod p), 1⟩
                  : QAdj p ((cipollaStep p y a0 : Nat) : ZMod p)) ^ ((p + 1) / 2)).b
                * (((⟨(a0 : ZMod p), 1⟩
                  : QAdj p ((cipollaStep p y a0 : Nat) : ZMod p)) ^ ((p + 1) / 2)).b)⁻¹
                = 1 := mul_inv_cancel₀ hb
            have hDval : ((s : ZMod p) * (((⟨(a0 : ZMod p), 1⟩
                  : QAdj p ((cipollaStep p y a0 : Nat) : ZMod p)) ^ ((p + 1) / 2)).b)⁻¹) ^ 2
                = ((cipollaStep p y a0 : Nat) : ZMod p) := by
              calc ((s : ZMod p) * (((⟨(a0 : ZMod p), 1⟩
                    : QAdj p ((cipollaStep p y a0 : Nat) : ZMod p)) ^ ((p + 1) / 2)).b)⁻¹) ^ 2
                  = ((s : ZMod p) * (s : ZMod p)) * ((((⟨(a0 : ZMod p), 1⟩
                    : QAdj p ((cipollaStep p y a0 : Nat) : ZMod p)) ^ ((p + 1) / 2)).b)⁻¹
                    * ((((⟨(a0 : ZMod p), 1⟩
                    : QAdj p ((cipollaStep p y a0 : Nat) : ZMod p)) ^ ((p + 1) / 2)).b)⁻¹)) := by
                    ring
                _ = (((⟨(a0 : ZMod p), 1⟩
                    : QAdj p ((cipollaStep p y a0 : Nat) : ZMod p)) ^ ((p + 1) / 2)).b
                    * ((⟨(a0 : ZMod p), 1⟩
                    : QAdj p ((cipollaStep p y a0 : Nat) : ZMod p)) ^ ((p + 1) / 2)).b
                    * ((cipollaStep p y a0 : Nat) : ZMod p)) * ((((⟨(a0 : ZMod p), 1⟩
                    : QAdj p ((cipollaStep p y a0 : Nat) : ZMod p)) ^ ((p + 1) / 2)).b)⁻¹
                    * ((((⟨(a0 : ZMod p), 1⟩
                    : QAdj p ((cipollaStep p y a0 : Nat) : ZMod p)) ^ ((p + 1) / 2)).b)⁻¹)) := by
                    rw [hyc, ← hyy]
                _ = (((⟨(a0 : ZMod p), 1⟩
                    : QAdj p ((cipollaStep p y a0 : Nat) : ZMod p)) ^ ((p + 1) / 2)).b
                    * (((⟨(a0 : ZMod p), 1⟩
                    : QAdj p ((cipollaStep p y a0 : Nat) : ZMod p)) ^ ((p + 1) / 2)).b)⁻¹)
                    * (((⟨(a0 : ZMod p), 1⟩
                    : QAdj p ((cipollaStep p y a0 : Nat) : ZMod p)) ^ ((p + 1) / 2)).b
                    * (((⟨(a0 : ZMod p), 1⟩
                    : QAdj p ((cipollaStep p y a0 : Nat) : ZMod p)) ^ ((p + 1) / 2)).b)⁻¹)
                    * ((cipollaStep p y a0 : Nat) : ZMod p) := by
                    ring
                _ = ((cipollaStep p y a0 : Nat) : ZMod p) := by
                    rw [hinv]
                    ring
            have hsne : (s : ZMod p) * (((⟨(a0 : ZMod p), 1⟩
                  : QAdj p ((cipollaStep p y a0 : Nat) : ZMod p)) ^ ((p + 1) / 2)).b)⁻¹ ≠ 0 :=
              mul_ne_zero hs0 (inv_ne_zero hb)
            have hfer : (((s : ZMod p) * (((⟨(a0 : ZMod p), 1⟩
                  : QAdj p ((cipollaStep p y a0 : Nat) : ZMod p)) ^ ((p + 1) / 2)).b)⁻¹) ^ 2)
                  ^ ((p - 1) / 2) = 1 := by
              rw [← pow_mul]
              have hexp : 2 * ((p - 1) / 2) = p - 1 := by omega
              rw [hexp]
              exact ZMod.pow_card_sub_one_eq_one hsne
            rw [hDval] at hfer
            have hcontra : (-1 : ZMod p) = 1 := by
              rw [← hneg, hfer]
            haveI : Fact (2 < p) := ⟨by omega⟩
            exact CharP.neg_one_ne_one (ZMod p) p hcontra
        rw [hra]
        rw [hzb0] at hza
        linear_combination hza - hDα
    have hrrlt : sqrt_cipolla y p * sqrt_cipolla y p % p < p := Nat.mod_lt _ (by omega)
    have hcast2 : ((sqrt_cipolla y p * sqrt_cipolla y p % p : Nat) : ZMod p)
        = ((y : Nat) : ZMod p) := by
      rw [ZMod.natCast_mod]
      push_cast
      exact hsq
    exact ⟨zmod_cast_inj hrrlt hy hcast2, hrlt⟩
  · left
    decide

/-- Witness for C5 at `p = 7`, `y = 2`, `s = 3` (`3² ≡ 2 (mod 7)`). -/
theorem sqrt_cipolla_correct_witness :
    Nat.Prime 7 ∧ 7 % 2 = 1 ∧ 2 < 7 ∧ 3 * 3 % 7 = 2 ∧
      (sqrt_cipolla 2 7 * sqrt_cipolla 2 7 % 7 = 2 ∧ sqrt_cipolla 2 7 < 7) :=
  ⟨by decide, by decide, by decide, by decide,
    sqrt_cipolla_correct.1 7 2 3 (by decide) (by decide) (by decide) (by decide)⟩
